import Mathlib

/-
Verification development for the qibolab pulse-control stack.

The definitions below are shallow embeddings of the Python source:
 - `src/qibolab/instruments/unrolling.py` (sequence batching),
 - `src/qibolab/result.py` (result containers),
 - `src/qibolab/transpilers/placer.py` (placement checks, Subgraph guard),
 - `src/qibolab/transpilers/routing.py` (ShortestPaths router),
 - `src/qibolab/platform.py` (Platform class body),
 - `src/qibolab/platforms/multiqubit.py` (sweep execution engine).

Python lists and numpy 1-D arrays are embedded as Lean `List`s, dicts as
association lists in insertion order, floats as `ℚ`, Python ints as `Nat`
or `Int` as appropriate.  Instrument I/O (port/LO writes, uploads) is an
external collaborator and is not modelled; only the data and control flow
of the engine itself is.  Loops whose termination is not syntactically
evident are given an explicit fuel argument; running out of fuel is
`Option.none`, distinct from every terminating outcome.
-/

namespace Qibolab

/-! ## Sequence batching (`src/qibolab/instruments/unrolling.py`) -/

/-- Embedding of `more_itertools.chunked`, used by `batch_max_sequences`:
repeatedly take `n` elements.  With `n = 0` the iterator stops at once and
yields nothing, as the library does. -/
def chunked {α : Type} : List α → Nat → List (List α)
  | _, 0 => []
  | [], _ + 1 => []
  | x :: xs, n + 1 => (x :: xs.take n) :: chunked (xs.drop n) (n + 1)
termination_by l _ => l.length
decreasing_by simp [List.length_drop]; omega

/-- Embedding of `batch_max_sequences`: split a list of sequences into
batches with a maximum number of sequences in each. -/
def batch_max_sequences {α : Type} (sequences : List α) (max_size : Nat) : List (List α) :=
  chunked sequences max_size

/-- The attributes of a `PulseSequence` read by the batching functions
(`sequence.duration`, `sequence.ro_pulses.duration`, `len(sequence.ro_pulses)`);
the pulse data itself is irrelevant to batching. -/
structure PSeq where
  duration : Int
  roDuration : Int
  nro : Nat
deriving DecidableEq, Repr

/-- The shared greedy loop of `batch_max_duration` and `batch_max_readout`:
accumulate into `batch` while the running weight stays within the bound,
flush (`yield`) the batch and restart from the current element otherwise,
and yield the final batch when the input ends. -/
def batchGo {α : Type} (w : α → Int) (maxW : Int) : List α → Int → List α → List (List α)
  | [], _, batch => [batch]
  | s :: rest, bw, batch =>
    if w s + bw > maxW then batch :: batchGo w maxW rest (w s) [s]
    else batchGo w maxW rest (bw + w s) (batch ++ [s])

/-- Embedding of `batch_max_duration`: batches bounded by the aggregate
non-readout duration `sequence.duration - sequence.ro_pulses.duration`. -/
def batch_max_duration (sequences : List PSeq) (max_duration : Int) : List (List PSeq) :=
  batchGo (fun s => s.duration - s.roDuration) max_duration sequences 0 []

/-- Embedding of `batch_max_readout`: batches bounded by the aggregate
number of readout pulses `len(sequence.ro_pulses)`. -/
def batch_max_readout (sequences : List PSeq) (max_measurements : Int) : List (List PSeq) :=
  batchGo (fun s => (s.nro : Int)) max_measurements sequences 0 []

/-- A greedily produced batch either respects the weight bound or is a
single element that exceeds the bound on its own. -/
def BatchOk {α : Type} (w : α → Int) (maxW : Int) (batch : List α) : Prop :=
  (batch.map w).sum ≤ maxW ∨ ∃ s, batch = [s] ∧ maxW < w s

/-! ## Result containers (`src/qibolab/result.py`) -/

/-- Embedding of the `(bins, shots)` reshape done by `IQResults.__init__`:
row `r` of `x.reshape(x.shape[0] // shots, shots)`. -/
def reshapeRows (xs : List ℚ) (shots : Nat) : List (List ℚ) :=
  (List.range (xs.length / shots)).map (fun r => (xs.drop (r * shots)).take shots)

/-- The i/q voltage grids of an `IQResults` instance after construction. -/
structure IQResults where
  voltageI : List (List ℚ)
  voltageQ : List (List ℚ)

/-- Embedding of `IQResults.__init__` with a shots-per-bin count: both raw
arrays are reshaped into a `(bins, shots)` grid. -/
def IQResults.ofArrays (i q : List ℚ) (shots : Nat) : IQResults :=
  ⟨reshapeRows i shots, reshapeRows q shots⟩

/-- `np.mean` of a 1-D array. -/
def listMean (xs : List ℚ) : ℚ := xs.sum / xs.length

/-- The square of `np.std` of a 1-D array (the mean squared deviation);
kept squared so that the value stays rational.  `np.std xs = sqrt (listVar xs)`,
and the square root is strictly monotone, so everything about which bins the
deviations are computed from is preserved. -/
def listVar (xs : List ℚ) : ℚ := listMean (xs.map (fun x => (x - listMean xs) ^ 2))

/-- The fields of the `AveragedIQResults` built by `IQResults.average`;
`stdI2`/`stdQ2` carry the squared standard deviations (see `listVar`). -/
structure AveragedIQResults where
  i : List ℚ
  q : List ℚ
  stdI2 : List ℚ
  stdQ2 : List ℚ

/-- Embedding of the `IQResults.average` property: iterate over the rows of
the two voltage grids in parallel, appending the row mean and row deviation
for i and for q, exactly as the `np.append` loop in the source does. -/
def IQResults.average (r : IQResults) : AveragedIQResults :=
  (r.voltageI.zip r.voltageQ).foldl
    (fun acc p =>
      ⟨acc.i ++ [listMean p.1], acc.q ++ [listMean p.2],
       acc.stdI2 ++ [listVar p.1], acc.stdQ2 ++ [listVar p.2]⟩)
    ⟨[], [], [], []⟩

/-! ## Placement checks (`src/qibolab/transpilers/placer.py`) -/

/-- The reference key list `["q" + str(i) for i in range(len(keys))]`. -/
def ref_keys (n : Nat) : List String :=
  (List.range n).map (fun i => "q" ++ toString i)

/-- Embedding of Python's `sorted` on a list of small integers (a stable
comparison sort; on `Nat` any comparison sort computes the same list). -/
def pySorted (l : List Nat) : List Nat := List.insertionSort (· ≤ ·) l

/-- Embedding of `assert_mapping_consistency`.  A Python dict is embedded as
its association list in insertion order, so `layout.keys()` is the list of
first components in that order. -/
def assert_mapping_consistency (layout : List (String × Nat)) : Bool :=
  let values := pySorted (layout.map Prod.snd)
  let keys := layout.map Prod.fst
  if keys ≠ ref_keys keys.length then false
  else if values ≠ List.range values.length then false
  else true

/-- Embedding of `assert_placement` (the circuit is only consulted for its
qubit count). -/
def assert_placement (nqubits : Nat) (layout : List (String × Nat)) : Bool :=
  if ¬ assert_mapping_consistency layout then false
  else if nqubits = layout.length then true
  else if nqubits > layout.length then false
  else false

/-- The placement condition as the claim words it: the keys are exactly the
set `{q0 .. q(n-1)}` (order irrelevant), the values are a permutation of
`{0 .. n-1}`, and `n` equals the circuit's qubit count.  Stated from the
claim for comparison with `assert_placement`. -/
def PlacementClaim (nqubits : Nat) (layout : List (String × Nat)) : Prop :=
  (layout.map Prod.fst).Perm (ref_keys layout.length) ∧
  (layout.map Prod.snd).Perm (List.range layout.length) ∧
  layout.length = nqubits

/-! ## Circuit representation and the Subgraph guard -/

/-- A gate of a circuit reaching the transpiler passes: a single-qubit gate,
a two-qubit gate, or a gate on more than two qubits. -/
inductive CGate : Type
  | one : Nat → CGate
  | two : Nat → Nat → CGate
  | multi : List Nat → CGate
deriving DecidableEq, Repr

/-- Order a qubit pair ascending, as the circuit representation stores it. -/
def sortPair (a b : Nat) : Nat × Nat := if a ≤ b then (a, b) else (b, a)

/-- Modelled from the spec: `qibolab.transpilers.abstract.create_circuit_repr`
is not under `src/`; per the spec ("the circuit's two-qubit-gate interaction
graph") and the in-repo test `test_circuit_representation`, it returns one
sorted qubit pair per two-qubit gate in circuit order and raises `ValueError`
for a gate acting on more than two qubits. -/
def create_circuit_repr : List CGate → Except String (List (Nat × Nat))
  | [] => .ok []
  | .one _ :: rest => create_circuit_repr rest
  | .two a b :: rest => (create_circuit_repr rest).map (fun r => sortPair a b :: r)
  | .multi _ :: _ => .error "gates acting on more than two qubits are not supported"

/-- Embedding of the guard at the top of `Subgraph.__call__`:
`if len(circuit_repr) < 3: raise ValueError(...)`. -/
def subgraph_call_guard (circuit_repr : List (Nat × Nat)) : Except String Unit :=
  if circuit_repr.length < 3 then
    .error "Circuit must contain at least two two qubit gates to implement subgraph placement"
  else .ok ()

/-! ## The two `Platform.sweep` definitions (`src/qibolab/platform.py`) -/

/-- The two bodies bound to the name `sweep` in the `Platform` class body, in
their order of appearance: the documented one that delegates to
`self.design.sweep(...)`, and the one that unconditionally raises. -/
inductive SweepDef : Type
  | delegating
  | raising
deriving DecidableEq, Repr

/-- The `Platform` class body binds `sweep` twice, in this order. -/
def platformSweepDefs : List SweepDef := [.delegating, .raising]

/-- Python class-body semantics: a later `def` of the same name overwrites an
earlier one, so attribute lookup finds the last binding. -/
def pyClassResolve (defs : List SweepDef) : Option SweepDef := defs.getLast?

/-- The arguments of a `Platform.sweep` call. -/
structure SweepCallArgs where
  platformName : String
  nshots : Nat
  average : Bool
  relaxation_time : Option Int
  nsweepers : Nat

/-- What a `Platform.sweep` call does, per bound body. -/
inductive SweepCallResult : Type
  | delegated
  | notImplementedError (msg : String)
deriving DecidableEq, Repr

/-- Run one of the two `sweep` bodies on a call. -/
def runSweepDef : SweepDef → SweepCallArgs → SweepCallResult
  | .delegating, _ => .delegated
  | .raising, a => .notImplementedError ("Platform " ++ a.platformName ++ " does not support sweeping.")

/-- `Platform.sweep` as resolved on an instance: the last class-body binding
applied to the call's arguments. -/
def Platform_sweep (a : SweepCallArgs) : Option SweepCallResult :=
  (pyClassResolve platformSweepDefs).map (fun d => runSweepDef d a)

/-! ## Sweep execution engine (`src/qibolab/platforms/multiqubit.py`) -/

/-- The sweepable parameters named by `MultiqubitPlatform._sweep_recursion`
(the `Parameter` enum of `qibolab/sweeper.py`, which is not under `src/`;
its members are fixed by the two lists in the engine itself). -/
inductive Parameter : Type
  | frequency
  | amplitude
  | duration
  | relative_phase
  | attenuation
  | gain
  | bias
  | start
  | lo_frequency
deriving DecidableEq, Repr

/-- The data of a `Sweeper` that the engine's control flow reads: its
parameter and its value array (values as ℚ, in degrees for phases). -/
structure SweeperM where
  parameter : Parameter
  values : List ℚ

/-- The list `for_loop_sweepers` of `_sweep_recursion`. -/
def for_loop_sweepers : List Parameter := [.attenuation, .lo_frequency]

/-- The list `rt_sweepers` of `_sweep_recursion`. -/
def rt_sweepers : List Parameter :=
  [.frequency, .gain, .bias, .amplitude, .start, .duration, .relative_phase]

/-- Modelled from the spec: `qibolab.instruments.qblox_q1asm.convert_phase`
is not under `src/`.  The spec says sweep values are converted to a device
phase code that wraps at the phase discontinuity; the code is the value
wrapped into one period (here kept in degrees, `[0, 360)`), which is
order-isomorphic to the device's scaled integer code. -/
def convert_phase (v : ℚ) : ℚ := v - 360 * (⌊v / 360⌋ : ℤ)

/-- The indices produced by `np.where(np.diff(c_values) < 0)`: positions `i`
with `c_values[i+1] < c_values[i]`. -/
def diffNegIdx (cs : List ℚ) : List Nat :=
  (List.range (cs.length - 1)).filter (fun i => decide (cs.getD (i + 1) 0 < cs.getD i 0))

/-- The condition `any(np.diff(c_values) < 0)` triggering the phase split. -/
def hasDecrease (cs : List ℚ) : Bool := !(diffNegIdx cs).isEmpty

/-- The split-point list `np.append(np.where(np.diff(c_values) < 0), len(c_values) - 1)`. -/
def splitPoints (cs : List ℚ) : List Nat := diffNegIdx cs ++ [cs.length - 1]

/-- The slicing loop of the phase split: for each split point `idx`, take the
slice `values[_from : idx + 1]` and continue from `idx + 1`. -/
def slicesFrom (values : List ℚ) : Nat → List Nat → List (List ℚ)
  | _, [] => []
  | fromIdx, idx :: restPts =>
    ((values.drop fromIdx).take (idx + 1 - fromIdx)) :: slicesFrom values (idx + 1) restPts

/-- The sub-sweep value lists a `relative_phase` sweeper is split into. -/
def splitSegments (values : List ℚ) : List (List ℚ) :=
  slicesFrom values 0 (splitPoints (values.map convert_phase))

/-- The execution options the engine reads: `nshots` and whether
`averaging_mode` is `SINGLESHOT`. -/
structure ExecutionParameters where
  nshots : Nat
  singleshot : Bool

/-- The `nshots` variable of the engine: `options.nshots` when single-shot,
`1` otherwise (the repetitions then live in `navgs`). -/
def effNshots (o : ExecutionParameters) : Nat := if o.singleshot then o.nshots else 1

/-- The Python exceptions the embedded engine can raise. -/
inductive PyErr : Type
  | mixedSweepers   -- Exception("cannot execute a for-loop sweeper nested inside of a rt sweeper")
  | typeErr         -- TypeError, e.g. None += value
  | keyErr          -- KeyError on a missing results key
  | indexErr        -- IndexError, e.g. sweepers[0] on an empty list
  | zeroDiv         -- ZeroDivisionError
deriving DecidableEq, Repr

/-- The engine state observed by the claims: the results map keyed by
readout-pulse id, and a ghost log recording the `nshots` of every
`execute_pulse_sequence` call issued so far. -/
structure SweepState where
  results : List (Nat × Option Int)
  shotLog : List Nat
deriving DecidableEq, Repr

/-- Outcome of an engine run: the final state together with the exception
that aborted the run, if any. -/
abbrev SweepOut := SweepState × Option PyErr

/-- Sequence two engine actions: an exception in the first aborts the
second, as Python exception propagation does. -/
def thenRun (r : SweepOut) (k : SweepState → SweepOut) : SweepOut :=
  match r with
  | (st, some e) => (st, some e)
  | (st, none) => k st

/-- Look up a key in the results map. -/
def lookupAssoc (res : List (Nat × Option Int)) (pid : Nat) : Option (Option Int) :=
  match res.find? (fun kv => kv.1 == pid) with
  | none => none
  | some kv => some kv.2

/-- Overwrite a key in the results map. -/
def setAssoc (res : List (Nat × Option Int)) (pid : Nat) (v : Option Int) :
    List (Nat × Option Int) :=
  res.map (fun kv => if kv.1 == pid then (kv.1, v) else kv)

/-- The accumulation of the for-loop branch (`_sweep_recursion`, innermost
for-loop level): `results[pulse.id] += result[pulse.serial]` with no `None`
check, so a still-seeded `None` entry raises `TypeError`. -/
def accumForLoop (meas : Nat → Int) : List Nat → List (Nat × Option Int) →
    Except PyErr (List (Nat × Option Int))
  | [], res => .ok res
  | pid :: rest, res =>
    match lookupAssoc res pid with
    | none => .error .keyErr
    | some none => .error .typeErr
    | some (some v) => accumForLoop meas rest (setAssoc res pid (some (v + meas pid)))

/-- The accumulation of the real-time branch: `None` entries receive the
first value, others the element-wise sum. -/
def accumRt (meas : Nat → Int) : List Nat → List (Nat × Option Int) →
    Except PyErr (List (Nat × Option Int))
  | [], res => .ok res
  | pid :: rest, res =>
    match lookupAssoc res pid with
    | none => .error .keyErr
    | some none => accumRt meas rest (setAssoc res pid (some (meas pid)))
    | some (some v) => accumRt meas rest (setAssoc res pid (some (v + meas pid)))

/-- The hardware bin limit `2 ** 17` of the splitting logic. -/
def binLimit : Nat := 2 ^ 17

/-- The `_nshots` chunk sizes computed (and then never used) by the
shot-splitting loop: `min(max_rt_nshots, nshots - i * max_rt_nshots)` for
`i in range(nshots // max_rt_nshots + 1)`. -/
def chunk_nshots (nshots sweepers_repetitions : Nat) : List Nat :=
  let max_rt_nshots := binLimit / sweepers_repetitions
  (List.range (nshots / max_rt_nshots + 1)).map
    (fun i => min max_rt_nshots (nshots - i * max_rt_nshots))

/-- Embedding of `MultiqubitPlatform._sweep_recursion`.  `meas` gives the
per-readout-pulse value an `execute_pulse_sequence` call acquires (constant
across calls; the instrument is an external collaborator), `roIds` the ids
of the sequence's readout pulses.  Port/LO reconfiguration and the
gain/amplitude staging are instrument I/O and are not modelled; the control
flow, splitting arithmetic and result accumulation follow the source.

The function's parameters are `(self, sequence, options, sweepers, results)`
with `sweepers` a plain (list) parameter, and all four nested recursive call
sites are malformed at the call boundary, so each aborts the run with
`TypeError`:
* lines 664-669 pass `options=options` as a keyword while `*sweepers[1:]`
  (nonempty in that branch) also reaches the `options` slot positionally —
  `TypeError: got multiple values for argument 'options'`;
* lines 695-700 and 767-772 evaluate `tuple([split_sweeper]) + sweepers[1:]`
  where `sweepers` is a list — `TypeError: can only concatenate tuple (not
  "list") to tuple`, raised while building the argument, before any call;
* lines 741-746 unpack `*sweepers`: with one sweeper the callee binds the
  bare `Sweeper` object to its `sweepers` parameter and raises on
  `sweepers[0]` (line 596) before touching any state, with two the fourth
  positional collides with `results=`, with more there are too many
  positional arguments. -/
def sweep_recursion (meas : Nat → Int) (roIds : List Nat)
    (options : ExecutionParameters) :
    List SweeperM → SweepState → SweepOut
  | [], st => (st, some .indexErr)
  | sw :: rest, st =>
    if sw.parameter ∈ for_loop_sweepers then
      -- for value in sweeper.values: reconfigure the port or LO (I/O), then
      -- either issue the malformed nested call (line 664: the tail's first
      -- element binds `options` positionally, duplicating the keyword) or
      -- execute and accumulate (no None check)
      sw.values.foldl
        (fun acc _ => thenRun acc (fun st1 =>
          if rest.isEmpty then
            match accumForLoop meas roIds st1.results with
            | .error e => (⟨st1.results, st1.shotLog ++ [effNshots options]⟩, some e)
            | .ok res => (⟨res, st1.shotLog ++ [effNshots options]⟩, none)
          else (st1, some .typeErr)))
        (st, none)
    else
      if sw.parameter = Parameter.relative_phase ∧
          hasDecrease (sw.values.map convert_phase) = true then
        -- wrapping relative-phase values: the split loop's every iteration
        -- evaluates tuple([split_sweeper]) + sweepers[1:] (line 698, a
        -- tuple + list concatenation), so the first iteration already aborts
        (splitSegments sw.values).foldl
          (fun acc _ => thenRun acc (fun st1 => (st1, some .typeErr)))
          (st, none)
      else
        if (sw :: rest).all (fun s => decide (s.parameter ∈ rt_sweepers)) then
          let nshots := effNshots options
          let num_bins := (sw :: rest).foldl (fun a s => a * s.values.length) nshots
          if num_bins < binLimit then
            -- execute_pulse_sequence(sequence, options, sweepers), then accumulate
            -- with the None check of the real-time branch
            match accumRt meas roIds st.results with
            | .error e => (⟨st.results, st.shotLog ++ [nshots]⟩, some e)
            | .ok res => (⟨res, st.shotLog ++ [nshots]⟩, none)
          else
            let sweepers_repetitions := (sw :: rest).foldl (fun a s => a * s.values.length) 1
            if sweepers_repetitions < binLimit then
              -- split nshots: _nshots is computed each iteration but the nested
              -- call (line 741) unpacks *sweepers, misbinding its arguments, so
              -- the first chunk aborts
              (List.range (nshots / (binLimit / sweepers_repetitions) + 1)).foldl
                (fun acc _ => thenRun acc (fun st1 => (st1, some .typeErr)))
                (st, none)
            else
              -- for shot in range(nshots): split the head sweeper's value range;
              -- the nested call (line 770) evaluates the tuple + list argument
              -- and aborts the first iteration
              (List.range nshots).foldl
                (fun accOuter _ =>
                  let num_bins2 := rest.foldl (fun a s => a * s.values.length) 1
                  let max_rt_iterations := binLimit / num_bins2
                  if max_rt_iterations = 0 then
                    thenRun accOuter (fun st1 => (st1, some .zeroDiv))
                  else
                    (List.range (sw.values.length / max_rt_iterations + 1)).foldl
                      (fun acc _ => thenRun acc (fun st1 => (st1, some .typeErr)))
                      accOuter)
                (st, none)
        else (st, some .mixedSweepers)

/-- The adjacency test of `MultiqubitPlatform.sweep`: some sweeper with
parameter `attenuation` immediately followed by one with `frequency`. -/
def contains_attenuation_frequency : List SweeperM → Bool
  | s1 :: s2 :: rest =>
    (s1.parameter == Parameter.attenuation && s2.parameter == Parameter.frequency) ||
      contains_attenuation_frequency (s2 :: rest)
  | _ => false

/-- The sweeper ordering performed by `MultiqubitPlatform.sweep` before the
recursion: the copied list is reversed unless it contains an
attenuation-then-frequency pair. -/
def orderSweepers (sweepers : List SweeperM) : List SweeperM :=
  if contains_attenuation_frequency sweepers then sweepers else sweepers.reverse

/-- A sweeper list in which a for-loop-only parameter appears after a
real-time parameter (in the order processed by `_sweep_recursion`). -/
def MixedBad (sweepers : List SweeperM) : Prop :=
  ∃ p r m f q, sweepers = p ++ r :: (m ++ f :: q) ∧
    r.parameter ∈ rt_sweepers ∧ f.parameter ∈ for_loop_sweepers

/-! ## The ShortestPaths router (`src/qibolab/transpilers/routing.py`) -/

/-- The chip connectivity: an undirected graph whose node `i` is the
physical qubit named `"q" + str(i)`, with `n = number_of_nodes()`. -/
structure Connectivity where
  n : Nat
  edges : List (Nat × Nat)

/-- Undirected edge membership, as networkx's `(u, v) in graph.edges`. -/
def adj (E : List (Nat × Nat)) (a b : Nat) : Bool :=
  decide ((a, b) ∈ E) || decide ((b, a) ∈ E)

/-- Embedding of `respect_connectivity`: single-qubit gates pass, two-qubit
gates must lie on a connectivity edge, any other (non-measurement) gate
fails.  Measurement gates never occur in a routed circuit, so they are not
part of the gate type. -/
def respect_connectivity (conn : Connectivity) : List CGate → Bool
  | [] => true
  | .one _ :: rest => respect_connectivity conn rest
  | .two a b :: rest => adj conn.edges a b && respect_connectivity conn rest
  | .multi _ :: _ => false

/-- Indexing a Python list of qubit labels, `l[x]` (always in range in the
source; out-of-range reads never occur under the invariants proved below). -/
def lookList (l : List Nat) (x : Nat) : Nat := l.getD x x

/-- Lookup in a relabelling dict: nodes outside the dict keep their label,
as `networkx.relabel_nodes` does. -/
def lookupMap (m : List (Nat × Nat)) (x : Nat) : Nat :=
  match m.find? (fun kv => kv.1 == x) with
  | none => x
  | some kv => kv.2

/-- Embedding of `networkx.relabel_nodes` on the edge list. -/
def relabelEdges (E : List (Nat × Nat)) (m : List (Nat × Nat)) : List (Nat × Nat) :=
  E.map (fun e => (lookupMap m e.1, lookupMap m e.2))

/-- Relabelling the connectivity by the initial layout: physical node `p`
(named `"q" + str(p)`, the `p`-th layout key) becomes the layout value. -/
def relabelByList (E : List (Nat × Nat)) (l : List Nat) : List (Nat × Nat) :=
  E.map (fun e => (lookList l e.1, lookList l e.2))

/-- Embedding of `ShortestPaths.reduce`: delete two-qubit gates from the
front of the circuit representation while they lie on an edge of the
current graph. -/
def reduceRepr : List (Nat × Nat) → List (Nat × Nat) → List (Nat × Nat)
  | [], _ => []
  | e :: rest, E => if adj E e.1 e.2 then reduceRepr rest E else e :: rest

/-- The neighbours of a node, read off the edge list. -/
def nbrs (E : List (Nat × Nat)) (x : Nat) : List Nat :=
  E.filterMap (fun e => if e.1 = x then some e.2 else none) ++
    E.filterMap (fun e => if e.2 = x then some e.1 else none)

/-- All simple paths from `x` to `t` of at most `fuel` edges, by depth-first
enumeration avoiding `visited` nodes. -/
def simplePathsTo (E : List (Nat × Nat)) (t : Nat) : Nat → Nat → List Nat → List (List Nat)
  | 0, x, _ => if x = t then [[x]] else []
  | fuel + 1, x, visited =>
    if x = t then [[x]]
    else
      ((nbrs E x).filter (fun y => !(visited.contains y))).flatMap
        (fun y => (simplePathsTo E t fuel y (x :: visited)).map (fun p => x :: p))

/-- Embedding of `networkx.all_shortest_paths` for an unweighted graph: the
simple paths from `s` to `t` of minimum length. -/
def allShortestPaths (E : List (Nat × Nat)) (s t fuel : Nat) : List (List Nat) :=
  let paths := simplePathsTo E t fuel s []
  match (paths.map List.length).min? with
  | none => []
  | some m => paths.filter (fun p => p.length = m)

/-- Embedding of `ShortestPaths.map_list` with the default
`sampling_split = 1.0` (all walks tested): for each `i`, the walk mapping
`dict(zip(path, path_middle[:i] + path_ends + path_middle[i:]))` with its
meeting point `i`. -/
def map_list (path : List Nat) : List (List (Nat × Nat) × Nat) :=
  let path_ends := [path.headD 0, path.getLastD 0]
  let path_middle := path.drop 1 |>.dropLast
  (List.range (path.length - 1)).map (fun i =>
    (path.zip (path_middle.take i ++ path_ends ++ path_middle.drop i), i))

/-- The mutable state of a `ShortestPaths` transpilation, with the position
into the original queue kept as the not-yet-consumed suffix. -/
structure RouterState where
  graph : List (Nat × Nat)
  qubitMap : List Nat
  crepr : List (Nat × Nat)
  queueRest : List CGate
  transpiled : List CGate
  added_swaps : Nat

/-- Embedding of `ShortestPaths.add_gates` as a function of the remaining
queue: add mapped single-qubit gates, and mapped two-qubit gates until
`matched` of them have been added; stop at the following two-qubit gate.
Returns the gates added and the remaining queue.  (Gates on more than two
qubits never reach this point: `create_circuit_repr` raises first.) -/
def addGatesGo (qm : List Nat) : List CGate → Nat → (List CGate × List CGate)
  | [], _ => ([], [])
  | .one q :: rest, matched =>
    let (gs, rem) := addGatesGo qm rest matched
    (.one (lookList qm q) :: gs, rem)
  | .two a b :: rest, 0 => ([], .two a b :: rest)
  | .two a b :: rest, matched + 1 =>
    let (gs, rem) := addGatesGo qm rest matched
    (.two (lookList qm a) (lookList qm b) :: gs, rem)
  | .multi qs :: rest, _ => ([], .multi qs :: rest)

/-- Consecutive pairs of a list (`more_itertools.pairwise`). -/
def pairwiseList : List Nat → List (Nat × Nat)
  | a :: b :: rest => (a, b) :: pairwiseList (b :: rest)
  | _ => []

/-- Embedding of `ShortestPaths.add_swaps`: SWAP gates walking the qubits
forward up to the meeting point and backward from the end. -/
def addSwaps (qm : List Nat) (path : List Nat) (meeting_point : Nat) : List CGate :=
  let forward := path.take (meeting_point + 1)
  let backward := (path.drop (meeting_point + 1)).reverse
  (pairwiseList forward ++ pairwiseList backward).map
    (fun e => CGate.two (lookList qm e.1) (lookList qm e.2))

/-- Embedding of `ShortestPaths.update_qubit_map`:
`self._qubit_map[value] = old_mapping[key]` for every dict item, reading
the pre-update map throughout. -/
def updateQubitMap (qm : List Nat) (mapping : List (Nat × Nat)) : List Nat :=
  mapping.foldl (fun acc kv => acc.set kv.2 (lookList qm kv.1)) qm

/-- The data relocate keeps for the best candidate found so far. -/
structure BestCand where
  graph : List (Nat × Nat)
  mapping : List (Nat × Nat)
  crepr : List (Nat × Nat)
  path : List Nat
  meeting_point : Nat

/-- Embedding of `ShortestPaths.relocate`: walk all shortest paths between
the two qubits of the first unsatisfied gate and all qubit walks on each,
greedily keeping the first strict improvement chain; `none` models the
exceptions of the source (`circuit[0]` on an empty reduction, no path
between the endpoints, or `final_path` referenced without any improving
candidate having been found). -/
def relocate (conn_n : Nat) (st : RouterState) :
    Option (RouterState × List (Nat × Nat) × List Nat × Nat) :=
  let circuit := reduceRepr st.crepr st.graph
  match circuit with
  | [] => none
  | e :: _ =>
    let path_list := allShortestPaths st.graph e.1 e.2 conn_n
    match path_list with
    | [] => none
    | p0 :: _ =>
      let added := st.added_swaps + (p0.length - 2)
      let cands := path_list.flatMap (fun p => (map_list p).map (fun mi => (p, mi.1, mi.2)))
      let best := cands.foldl
        (fun (acc : Nat × Option BestCand) c =>
          let newG := relabelEdges st.graph c.2.1
          let newC := reduceRepr st.crepr newG
          if newC.length < acc.1 then (newC.length, some ⟨newG, c.2.1, newC, c.1, c.2.2⟩)
          else acc)
        (circuit.length, none)
      match best.2 with
      | none => none
      | some b =>
        some (⟨b.graph, st.qubitMap, b.crepr, st.queueRest, st.transpiled, added⟩,
          b.mapping, b.path, b.meeting_point)

/-- Embedding of `ShortestPaths.transpiler_step`: relocate, insert the swap
gates (with the pre-update qubit map), update the qubit map, then add the
gates the new configuration allows. -/
def transpiler_step (conn_n : Nat) (st : RouterState) : Option RouterState :=
  let len2q := st.crepr.length
  match relocate conn_n st with
  | none => none
  | some (st1, mapping, path, mp) =>
    let out1 := st1.transpiled ++ addSwaps st1.qubitMap path mp
    let qm1 := updateQubitMap st1.qubitMap mapping
    let matched := len2q - st1.crepr.length
    let (gs, rem) := addGatesGo qm1 st1.queueRest matched
    some ⟨st1.graph, qm1, st1.crepr, rem, out1 ++ gs, st1.added_swaps⟩

/-- Embedding of `ShortestPaths.first_transpiler_step`: apply the gates the
initial qubit mapping already allows. -/
def first_transpiler_step (st : RouterState) : RouterState :=
  let len2q := st.crepr.length
  let crepr1 := reduceRepr st.crepr st.graph
  let matched := len2q - crepr1.length
  let (gs, rem) := addGatesGo st.qubitMap st.queueRest matched
  ⟨st.graph, st.qubitMap, crepr1, rem, st.transpiled ++ gs, 0⟩

/-- The `while len(self._circuit_repr) != 0` loop of `ShortestPaths.__call__`,
with fuel. -/
def routerLoop (conn_n : Nat) : Nat → RouterState → Option RouterState
  | 0, st => if st.crepr.isEmpty then some st else none
  | fuel + 1, st =>
    if st.crepr.isEmpty then some st
    else
      match transpiler_step conn_n st with
      | none => none
      | some st1 => routerLoop conn_n fuel st1

/-- The index comparison `np.argsort` sorts by: value at `i` at most value
at `j`. -/
def keyle (l : List Nat) (i j : Nat) : Prop := l.getD i 0 ≤ l.getD j 0

instance (l : List Nat) : DecidableRel (keyle l) := fun _ _ => Nat.decLe _ _

/-- Embedding of `np.argsort`: the indices of `l` sorted by their values
(on the permutations handled here all values are distinct, so any
comparison sort computes the same list). -/
def argsortList (l : List Nat) : List Nat := List.insertionSort (keyle l) (List.range l.length)

/-- Embedding of `remap_circuit`: map every gate qubit through `qubit_map`. -/
def remap_circuit (gs : List CGate) (qubit_map : List Nat) : List CGate :=
  gs.map (fun g =>
    match g with
    | .one q => .one (lookList qubit_map q)
    | .two a b => .two (lookList qubit_map a) (lookList qubit_map b)
    | .multi qs => .multi qs)

/-- Embedding of `ShortestPaths.__call__` with the default
`sampling_split = 1.0`: initial checks, build the circuit representation,
relabel the connectivity by the layout, run the transpilation loop, and map
the transpiled circuit back through `np.argsort(init_qubit_map)`.  `none`
models any raised exception as well as fuel exhaustion; only the output
circuit is returned (the final mapping is not needed by the claims). -/
def ShortestPaths_call (conn : Connectivity) (initial_layout : List (String × Nat))
    (queue : List CGate) (nqubits : Nat) (fuel : Nat) : Option (List CGate) :=
  if nqubits > conn.n then none
  else if ¬ (assert_placement conn.n initial_layout = true) then none
  else
    match create_circuit_repr queue with
    | .error _ => none
    | .ok repr0 =>
      let init_qubit_map := initial_layout.map (fun kv => kv.2)
      let graph0 := relabelByList conn.edges init_qubit_map
      let qm0 := pySorted init_qubit_map
      let st0 : RouterState := ⟨graph0, qm0, repr0, queue, [], 0⟩
      match routerLoop conn.n fuel (first_transpiler_step st0) with
      | none => none
      | some stF => some (remap_circuit stF.transpiled (argsortList init_qubit_map))

/-- A transpiled gate is acceptable when, after the final
`np.argsort(init_qubit_map)` remapping, it is a single-qubit gate or a
two-qubit gate on a connectivity edge. -/
def GateOk (conn : Connectivity) (argInv : List Nat) : CGate → Prop
  | .one _ => True
  | .two a b => adj conn.edges (lookList argInv a) (lookList argInv b) = true
  | .multi _ => False

/-- The invariant maintained by the `ShortestPaths` transpilation loop. -/
structure RouterInv (conn : Connectivity) (argInv : List Nat) (st : RouterState) : Prop where
  inv : ∀ a b, adj st.graph a b = true →
    adj conn.edges (lookList argInv (lookList st.qubitMap a))
      (lookList argInv (lookList st.qubitMap b)) = true
  qmLen : st.qubitMap.length = conn.n
  gBound : ∀ e ∈ st.graph, e.1 < conn.n ∧ e.2 < conn.n
  gIrr : ∀ e ∈ st.graph, e.1 ≠ e.2
  rBound : ∀ e ∈ st.crepr, e.1 < conn.n ∧ e.2 < conn.n
  reprCorr : create_circuit_repr st.queueRest = .ok st.crepr
  outOk : ∀ g ∈ st.transpiled, GateOk conn argInv g

/-- The single real-time sweeper of the bin-splitting claim: 20 values. -/
def c1Sweeper : SweeperM := ⟨Parameter.frequency, (List.range 20).map (fun n => (n : ℚ))⟩

/-- The execution options of the bin-splitting claim: 10000 single-shot shots. -/
def c1Options : ExecutionParameters := ⟨10000, true⟩

/-! ## Helper lemmas -/

theorem chunked_join {α : Type} : ∀ (l : List α) (n : Nat), 0 < n → (chunked l n).flatten = l := by
  intro l n
  induction l, n using chunked.induct with
  | case1 l => intro h; exact absurd h (by omega)
  | case2 n => intro _; simp [chunked]
  | case3 x xs n ih =>
    intro _
    rw [chunked]
    simp only [List.flatten_cons, ih (by omega), List.cons_append]
    rw [List.take_append_drop]

theorem chunked_length_le {α : Type} :
    ∀ (l : List α) (n : Nat) (b : List α), b ∈ chunked l n → b.length ≤ n := by
  intro l n
  induction l, n using chunked.induct with
  | case1 l => intro b hb; simp [chunked] at hb
  | case2 n => intro b hb; simp [chunked] at hb
  | case3 x xs n ih =>
    intro b hb
    rw [chunked] at hb
    rcases List.mem_cons.mp hb with hb | hb
    · subst hb; simp
    · exact ih b hb

theorem batchGo_join {α : Type} (w : α → Int) (maxW : Int) :
    ∀ (l : List α) (bw : Int) (batch : List α),
      (batchGo w maxW l bw batch).flatten = batch ++ l := by
  intro l
  induction l with
  | nil => intro bw batch; simp [batchGo]
  | cons s rest ih =>
    intro bw batch
    rw [batchGo]
    by_cases h : w s + bw > maxW
    · rw [if_pos h]; simp [ih]
    · rw [if_neg h]; simp [ih]

theorem batchGo_ok {α : Type} (w : α → Int) (maxW : Int) :
    ∀ (l : List α) (bw : Int) (batch : List α),
      bw = (batch.map w).sum → BatchOk w maxW batch →
      ∀ b ∈ batchGo w maxW l bw batch, BatchOk w maxW b := by
  intro l
  induction l with
  | nil =>
    intro bw batch _ hok b hb
    simp [batchGo] at hb
    exact hb ▸ hok
  | cons s rest ih =>
    intro bw batch hbw hok b hb
    rw [batchGo] at hb
    by_cases h : w s + bw > maxW
    · rw [if_pos h] at hb
      rcases List.mem_cons.mp hb with hb | hb
      · exact hb ▸ hok
      · refine ih (w s) [s] (by simp) ?_ b hb
        by_cases hs : w s ≤ maxW
        · exact Or.inl (by simpa using hs)
        · exact Or.inr ⟨s, rfl, by omega⟩
    · rw [if_neg h] at hb
      refine ih (bw + w s) (batch ++ [s]) (by simp [hbw]) ?_ b hb
      refine Or.inl ?_
      have hsum : ((batch ++ [s]).map w).sum = bw + w s := by simp [hbw]
      omega

/-! ## C8: sequence batching -/

/-- C8: for each of `batch_max_sequences`, `batch_max_duration` and
`batch_max_readout`, concatenating the output batches in order reproduces
the input list exactly, and every batch respects its bound except that a
single element exceeding the bound on its own forms a batch alone (for
`batch_max_sequences` every batch respects the count bound outright). -/
theorem c8_batching_round_trip_and_bounds :
    (∀ (α : Type) (l : List α) (max_size : Nat), 0 < max_size →
        (batch_max_sequences l max_size).flatten = l ∧
        ∀ b ∈ batch_max_sequences l max_size, b.length ≤ max_size) ∧
    (∀ (seqs : List PSeq) (max_duration : Int), 0 ≤ max_duration →
        (batch_max_duration seqs max_duration).flatten = seqs ∧
        ∀ b ∈ batch_max_duration seqs max_duration,
          BatchOk (fun s => s.duration - s.roDuration) max_duration b) ∧
    (∀ (seqs : List PSeq) (max_measurements : Int), 0 ≤ max_measurements →
        (batch_max_readout seqs max_measurements).flatten = seqs ∧
        ∀ b ∈ batch_max_readout seqs max_measurements,
          BatchOk (fun s => (s.nro : Int)) max_measurements b) := by
  refine ⟨fun α l n hn => ⟨chunked_join l n hn, fun b hb => chunked_length_le l n b hb⟩,
    fun seqs m hm => ⟨by simpa using batchGo_join _ m seqs 0 [], ?_⟩,
    fun seqs m hm => ⟨by simpa using batchGo_join _ m seqs 0 [], ?_⟩⟩
  · exact batchGo_ok _ m seqs 0 [] (by simp) (Or.inl (by simpa using hm))
  · exact batchGo_ok _ m seqs 0 [] (by simp) (Or.inl (by simpa using hm))

/-- Witness for C8 at concrete inputs. -/
theorem c8_batching_round_trip_and_bounds_witness :
    (batch_max_sequences [10, 20, 30] 2).flatten = [10, 20, 30] ∧
    (batch_max_duration [⟨5, 2, 1⟩, ⟨7, 0, 2⟩] 4).flatten = [⟨5, 2, 1⟩, ⟨7, 0, 2⟩] ∧
    (batch_max_readout [⟨5, 2, 1⟩, ⟨7, 0, 2⟩] 1).flatten = [⟨5, 2, 1⟩, ⟨7, 0, 2⟩] :=
  ⟨(c8_batching_round_trip_and_bounds.1 Nat [10, 20, 30] 2 (by decide)).1,
   (c8_batching_round_trip_and_bounds.2.1 [⟨5, 2, 1⟩, ⟨7, 0, 2⟩] 4 (by decide)).1,
   (c8_batching_round_trip_and_bounds.2.2 [⟨5, 2, 1⟩, ⟨7, 0, 2⟩] 1 (by decide)).1⟩

/-! ## C10: the shadowed `Platform.sweep` -/

/-- C10: the `Platform` class body defines `sweep` twice; attribute
resolution finds the second definition, so every call raises
`NotImplementedError` and nothing is delegated to the instrument design. -/
theorem c10_platform_sweep_always_raises (a : SweepCallArgs) :
    pyClassResolve platformSweepDefs = some SweepDef.raising ∧
    Platform_sweep a = some (.notImplementedError
      ("Platform " ++ a.platformName ++ " does not support sweeping.")) :=
  ⟨rfl, rfl⟩

/-! ## C7: the Subgraph placer guard -/

/-- C7: a circuit with exactly two two-qubit gates is rejected by the
`Subgraph` placer: its circuit representation has length `2 < 3`, so the
guard raises the `ValueError` whose own message says two gates suffice. -/
theorem c7_subgraph_rejects_two_gates :
    create_circuit_repr [CGate.two 0 1, CGate.two 1 2] = Except.ok [(0, 1), (1, 2)] ∧
    subgraph_call_guard [(0, 1), (1, 2)] = Except.error
      "Circuit must contain at least two two qubit gates to implement subgraph placement" := by
  exact ⟨rfl, rfl⟩

/-! ## C9: `IQResults.average` -/

theorem avg_fold_spec :
    ∀ (l : List (List ℚ × List ℚ)) (acc : AveragedIQResults),
      (l.foldl
        (fun acc p =>
          ⟨acc.i ++ [listMean p.1], acc.q ++ [listMean p.2],
           acc.stdI2 ++ [listVar p.1], acc.stdQ2 ++ [listVar p.2]⟩) acc) =
      ⟨acc.i ++ l.map (fun p => listMean p.1), acc.q ++ l.map (fun p => listMean p.2),
       acc.stdI2 ++ l.map (fun p => listVar p.1), acc.stdQ2 ++ l.map (fun p => listVar p.2)⟩ := by
  intro l
  induction l with
  | nil => intro acc; simp
  | cons p rest ih =>
    intro acc
    simp only [List.foldl_cons, ih, List.map_cons]
    simp [List.append_assoc]

/-- C9: `average` reduces over the shots axis: its i and q entries are the
per-bin means of the reshaped i and q arrays, and the (squared) standard
deviations are likewise computed per bin from i alone and from q alone --
means are never taken of derived quantities. -/
theorem c9_average_is_per_bin_mean (i q : List ℚ) (shots : Nat)
    (hs : shots ≠ 0) (hl : i.length = q.length) :
    (IQResults.ofArrays i q shots).average.i = (reshapeRows i shots).map listMean ∧
    (IQResults.ofArrays i q shots).average.q = (reshapeRows q shots).map listMean ∧
    (IQResults.ofArrays i q shots).average.stdI2 = (reshapeRows i shots).map listVar ∧
    (IQResults.ofArrays i q shots).average.stdQ2 = (reshapeRows q shots).map listVar := by
  have hlen : (reshapeRows i shots).length = (reshapeRows q shots).length := by
    simp [reshapeRows, hl]
  have hfst : ((reshapeRows i shots).zip (reshapeRows q shots)).map Prod.fst =
      reshapeRows i shots := List.map_fst_zip _ _ (le_of_eq hlen)
  have hsnd : ((reshapeRows i shots).zip (reshapeRows q shots)).map Prod.snd =
      reshapeRows q shots := List.map_snd_zip _ _ (ge_of_eq hlen)
  have h1 : ∀ f : List ℚ → ℚ,
      ((reshapeRows i shots).zip (reshapeRows q shots)).map (fun p => f p.1) =
        (reshapeRows i shots).map f := by
    intro f
    calc ((reshapeRows i shots).zip (reshapeRows q shots)).map (fun p => f p.1)
        = (((reshapeRows i shots).zip (reshapeRows q shots)).map Prod.fst).map f := by
          rw [List.map_map]; rfl
      _ = (reshapeRows i shots).map f := by rw [hfst]
  have h2 : ∀ f : List ℚ → ℚ,
      ((reshapeRows i shots).zip (reshapeRows q shots)).map (fun p => f p.2) =
        (reshapeRows q shots).map f := by
    intro f
    calc ((reshapeRows i shots).zip (reshapeRows q shots)).map (fun p => f p.2)
        = (((reshapeRows i shots).zip (reshapeRows q shots)).map Prod.snd).map f := by
          rw [List.map_map]; rfl
      _ = (reshapeRows q shots).map f := by rw [hsnd]
  simp only [IQResults.ofArrays, IQResults.average, avg_fold_spec]
  exact ⟨by simpa using h1 listMean, by simpa using h2 listMean,
    by simpa using h1 listVar, by simpa using h2 listVar⟩

/-- Witness for C9 at the claim's input: i = [1,2,3,4], q = [5,6,7,8],
shots = 2, giving bins [[1,2],[3,4]] and per-bin means [3/2, 7/2]. -/
theorem c9_average_is_per_bin_mean_witness :
    (IQResults.ofArrays [1, 2, 3, 4] [5, 6, 7, 8] 2).average.i = [3/2, 7/2] := by
  have h := (c9_average_is_per_bin_mean [1, 2, 3, 4] [5, 6, 7, 8] 2 (by decide) (by decide)).1
  rw [h]
  norm_num [reshapeRows, listMean, List.range_succ]

/-! ## C6: `assert_placement` -/

theorem pySorted_eq_range_iff (l : List Nat) (n : Nat) (hn : l.length = n) :
    pySorted l = List.range n ↔ l.Perm (List.range n) := by
  constructor
  · intro h
    exact h ▸ (List.perm_insertionSort _ l).symm
  · intro h
    exact @List.eq_of_perm_of_sorted ℕ (· ≤ ·) inferInstance _ _
      ((List.perm_insertionSort _ l).trans h) (List.sorted_insertionSort _ l)
      (List.pairwise_le_range n)

theorem assert_mapping_consistency_eq_true (layout : List (String × Nat)) :
    assert_mapping_consistency layout = true ↔
      layout.map Prod.fst = ref_keys layout.length ∧
      (layout.map Prod.snd).Perm (List.range layout.length) := by
  have hkl : (layout.map Prod.fst).length = layout.length := List.length_map _ _
  have hvl : (pySorted (layout.map Prod.snd)).length = layout.length := by
    simp [pySorted, List.length_insertionSort]
  simp only [assert_mapping_consistency]
  rw [hkl, hvl]
  split_ifs with h1 h2
  · constructor
    · intro h; exact absurd h (by simp)
    · intro h; exact absurd h.1 h1
  · constructor
    · intro h; exact absurd h (by simp)
    · intro h
      exact absurd ((pySorted_eq_range_iff _ _ (by simp)).mpr h.2) h2
  · constructor
    · intro _
      exact ⟨not_not.mp h1, (pySorted_eq_range_iff _ _ (by simp)).mp (not_not.mp h2)⟩
    · intro _; rfl

theorem assert_placement_eq_true (nqubits : Nat) (layout : List (String × Nat)) :
    assert_placement nqubits layout = true ↔
      layout.map Prod.fst = ref_keys layout.length ∧
      (layout.map Prod.snd).Perm (List.range layout.length) ∧
      layout.length = nqubits := by
  unfold assert_placement
  split_ifs with h1 h2 h3
  · constructor
    · intro _
      have hc := (assert_mapping_consistency_eq_true layout).mp h1
      exact ⟨hc.1, hc.2, h2.symm⟩
    · intro _; rfl
  · constructor
    · intro h; exact absurd h (by simp)
    · intro h; exact absurd h.2.2.symm h2
  · constructor
    · intro h; exact absurd h (by simp)
    · intro h; exact absurd h.2.2.symm h2
  · constructor
    · intro h; exact absurd h (by simp)
    · intro h
      exact absurd ((assert_mapping_consistency_eq_true layout).mpr ⟨h.1, h.2.1⟩) h1

/-- C6 counterexample: a layout whose keys form the set `{q0, q1}` and whose
values are a permutation of `{0, 1}`, matching a 2-qubit circuit — so the
claim's conditions hold — but whose dict insertion order is `q1, q0`, on
which `assert_placement` returns `False` because the source compares the key
list against `["q0", "q1"]` in order. -/
theorem c6_assert_placement_counterexample :
    PlacementClaim 2 [("q1", 0), ("q0", 1)] ∧
    assert_placement 2 [("q1", 0), ("q0", 1)] = false := by
  exact ⟨⟨by decide, by decide, rfl⟩, by decide⟩

/-- C6 (amended): `assert_placement` returns `True` iff the key list of the
layout, in insertion order, is exactly `[q0, ..., q(n-1)]`, the values are a
permutation of `{0 .. n-1}`, and `n` equals the circuit's qubit count; it
returns `False` in every other case (it never raises). -/
theorem c6_assert_placement_amended (nqubits : Nat) (layout : List (String × Nat)) :
    assert_placement nqubits layout = true ↔
      layout.map Prod.fst = ref_keys layout.length ∧
      (layout.map Prod.snd).Perm (List.range layout.length) ∧
      layout.length = nqubits :=
  assert_placement_eq_true nqubits layout

/-! ## Engine fold helpers -/

theorem foldl_thenRun_acc_err {β : Type} (g : β → SweepState → SweepOut)
    (st : SweepState) (e : PyErr) :
    ∀ l : List β, l.foldl (fun acc y => thenRun acc (g y)) (st, some e) =
      (st, some e) := by
  intro l
  induction l with
  | nil => rfl
  | cons x xs ih => simpa [thenRun] using ih

theorem foldl_thenRun_first_err {β : Type} (g : β → SweepState → SweepOut)
    (st : SweepState) (e : PyErr) (x : β) (l : List β)
    (hx : g x st = (st, some e)) :
    (x :: l).foldl (fun acc y => thenRun acc (g y)) (st, none) = (st, some e) := by
  rw [List.foldl_cons]
  have h1 : thenRun (st, none) (g x) = (st, some e) := by rw [thenRun, hx]
  simpa [h1] using foldl_thenRun_acc_err g st e l

/-! ## C1: bin-capacity shot splitting -/

/-- C1: on `nshots = 10000` with one real-time sweeper of 20 values, the
engine computes the `_nshots` chunks `[6553, 3447]` (whose sum is exactly
10000) — but the chunk loop's recursive call unpacks `*sweepers`, handing
the bare sweeper object to the callee's list parameter, whose `sweepers[0]`
raises `TypeError`: the run aborts on the first chunk with zero shots
executed and the results map untouched. -/
theorem c1_shot_chunks_computed_but_never_executed :
    chunk_nshots 10000 20 = [6553, 3447] ∧
    (chunk_nshots 10000 20).sum = 10000 ∧
    (∀ (meas : Nat → Int) (roIds : List Nat) (st : SweepState),
      sweep_recursion meas roIds c1Options [c1Sweeper] st =
        (st, some PyErr.typeErr)) := by
  refine ⟨by decide, by decide, ?_⟩
  intro meas roIds st
  simp only [sweep_recursion]
  rw [if_neg (by decide), if_neg (by decide), if_pos (by decide), if_neg (by decide),
    if_pos (by decide)]
  cases hr : List.range (effNshots c1Options /
      (binLimit / List.foldl (fun a s => a * s.values.length) 1 [c1Sweeper]) + 1) with
  | nil => exact absurd hr (by simp)
  | cons y ys =>
    exact foldl_thenRun_first_err _ st PyErr.typeErr y ys rfl

/-! ## C4: results accumulation -/

/-- C4: the real-time branch accumulates with the claimed `None`-aware
semantics, but the for-loop branch applies `+=` unconditionally, so the
first accumulation into the `None`-seeded results map raises `TypeError`;
evaluated on a sweep with a single attenuation (for-loop) sweeper and one
readout pulse. -/
theorem c4_forloop_accumulation_fails_on_seeded_none :
    accumRt (fun _ => 5) [0] [(0, none)] = .ok [(0, some 5)] ∧
    accumRt (fun _ => 5) [0] [(0, some 2)] = .ok [(0, some 7)] ∧
    accumForLoop (fun _ => 5) [0] [(0, none)] = .error PyErr.typeErr ∧
    sweep_recursion (fun _ => 5) [0] ⟨1000, true⟩
      [⟨Parameter.attenuation, [10]⟩] ⟨[(0, none)], []⟩ =
      (⟨[(0, none)], [1000]⟩, some PyErr.typeErr) := by
  exact ⟨rfl, rfl, rfl, by decide⟩

/-! ## C2: for-loop sweepers nested under real-time sweepers -/

theorem rt_for_loop_disjoint (p : Parameter)
    (h1 : p ∈ rt_sweepers) (h2 : p ∈ for_loop_sweepers) : False := by
  cases p <;> simp_all [rt_sweepers, for_loop_sweepers]

theorem MixedBad.ne_nil {l : List SweeperM} (h : MixedBad l) : l ≠ [] := by
  obtain ⟨p, r, m, f, q, heq, _, _⟩ := h
  subst heq
  simp

theorem MixedBad.exists_fl {l : List SweeperM} (h : MixedBad l) :
    ∃ x ∈ l, x.parameter ∈ for_loop_sweepers := by
  obtain ⟨p, r, m, f, q, heq, _, hf⟩ := h
  subst heq
  exact ⟨f, by simp, hf⟩

theorem MixedBad.tail {sw : SweeperM} {rest : List SweeperM}
    (h : MixedBad (sw :: rest)) (hsw : sw.parameter ∈ for_loop_sweepers) :
    MixedBad rest := by
  obtain ⟨p, r, m, f, q, heq, hr, hf⟩ := h
  cases p with
  | nil =>
    rw [List.nil_append] at heq
    have hswr : sw = r := (List.cons.injEq _ _ _ _ ▸ heq).1
    exact absurd hf (fun _ => rt_for_loop_disjoint sw.parameter (hswr ▸ hr) hsw)
  | cons hd tl =>
    rw [List.cons_append] at heq
    have h2 : rest = tl ++ r :: (m ++ f :: q) := (List.cons.injEq _ _ _ _ ▸ heq).2
    exact ⟨tl, r, m, f, q, h2, hr, hf⟩

theorem MixedBad.rest_fl {sw : SweeperM} {rest : List SweeperM}
    (h : MixedBad (sw :: rest)) (hsw : sw.parameter ∈ rt_sweepers) :
    ∃ x ∈ rest, x.parameter ∈ for_loop_sweepers := by
  obtain ⟨x, hx, hxf⟩ := h.exists_fl
  rcases List.mem_cons.mp hx with rfl | hx
  · exact absurd hxf (fun _ => rt_for_loop_disjoint x.parameter hsw hxf)
  · exact ⟨x, hx, hxf⟩

theorem all_rt_false {l : List SweeperM} (hx : ∃ x ∈ l, x.parameter ∈ for_loop_sweepers) :
    l.all (fun s => decide (s.parameter ∈ rt_sweepers)) = false := by
  obtain ⟨x, hxl, hxf⟩ := hx
  rw [List.all_eq_false]
  refine ⟨x, hxl, ?_⟩
  simp only [decide_eq_true_eq]
  exact fun h => rt_for_loop_disjoint x.parameter h hxf

theorem diffNegIdx_take_head {cs : List ℚ} {i₀ : Nat} {rest : List Nat}
    (h : diffNegIdx cs = i₀ :: rest) :
    diffNegIdx (cs.take (i₀ + 1)) = [] := by
  have hi₀ : i₀ ∈ diffNegIdx cs := h ▸ List.mem_cons_self i₀ rest
  have hi₀r : i₀ ∈ List.range (cs.length - 1) := List.mem_of_mem_filter hi₀
  have hi₀lt : i₀ < cs.length - 1 := List.mem_range.mp hi₀r
  have hmin : ∀ j < i₀, ¬ (cs.getD (j + 1) 0 < cs.getD j 0) := by
    intro j hj hdec
    have hjmem : j ∈ diffNegIdx cs := by
      refine List.mem_filter.mpr ⟨List.mem_range.mpr (by omega), by simpa using hdec⟩
    rw [h] at hjmem
    rcases List.mem_cons.mp hjmem with rfl | hjmem
    · omega
    · have hpw : List.Pairwise (· < ·) (diffNegIdx cs) :=
        List.Pairwise.filter _ (List.pairwise_lt_range _)
      rw [h] at hpw
      have := (List.pairwise_cons.mp hpw).1 j hjmem
      omega
  have hlen : (cs.take (i₀ + 1)).length = i₀ + 1 := by
    rw [List.length_take]
    omega
  rw [diffNegIdx, List.filter_eq_nil_iff]
  intro j hj
  rw [hlen] at hj
  have hj' : j < i₀ := by simpa using List.mem_range.mp hj
  have e1 : (cs.take (i₀ + 1)).getD (j + 1) 0 = cs.getD (j + 1) 0 := by
    rw [List.getD_eq_getElem _ _ (by omega), List.getD_eq_getElem _ _ (by omega)]
    exact List.getElem_take _
  have e2 : (cs.take (i₀ + 1)).getD j 0 = cs.getD j 0 := by
    rw [List.getD_eq_getElem _ _ (by omega), List.getD_eq_getElem _ _ (by omega)]
    exact List.getElem_take _
  simp only [e1, e2, decide_eq_true_eq]
  exact fun hdec => hmin j hj' (by simpa using hdec)

theorem param_mem_rt_of_not_fl {p : Parameter} (h : p ∉ for_loop_sweepers) :
    p ∈ rt_sweepers := by
  cases p <;> simp_all [rt_sweepers, for_loop_sweepers]

/-- C2: whenever the sweeper list processed by `_sweep_recursion` (i.e. in
the order obtained after `sweep`'s documented reversal) contains a
for-loop-only parameter after a real-time parameter, the run aborts with a
fatal exception before any execution, leaving the results map and the
execution log unchanged: the dedicated mixed-sweeper `Exception` when the
leading sweeper is real-time and does not enter the wrapping-phase split,
and the `TypeError` of a malformed nested call otherwise (`options` bound
twice by `*sweepers[1:]` for a for-loop head at line 664, `tuple + list` in
the phase split at line 698); and the ordering step of `sweep` keeps a list
containing an attenuation-then-frequency pair in its given order while
reversing every other list. -/
theorem c2_mixed_sweeper_fatal_and_ordering :
    (∀ (sw : SweeperM) (rest : List SweeperM) (meas : Nat → Int) (roIds : List Nat)
        (options : ExecutionParameters) (st : SweepState),
        MixedBad (sw :: rest) → (∀ s ∈ sw :: rest, s.values ≠ []) →
        sweep_recursion meas roIds options (sw :: rest) st =
          (st, some (if sw.parameter ∈ for_loop_sweepers then PyErr.typeErr
            else if sw.parameter = Parameter.relative_phase ∧
                hasDecrease (sw.values.map convert_phase) = true then PyErr.typeErr
            else PyErr.mixedSweepers))) ∧
    (∀ sweepers : List SweeperM,
        (contains_attenuation_frequency sweepers = true →
          orderSweepers sweepers = sweepers) ∧
        (contains_attenuation_frequency sweepers = false →
          orderSweepers sweepers = sweepers.reverse)) := by
  constructor
  · intro sw rest meas roIds options st hbad hvals
    simp only [sweep_recursion]
    by_cases hfl : sw.parameter ∈ for_loop_sweepers
    · rw [if_pos hfl, if_pos hfl]
      have hrest : rest ≠ [] := (hbad.tail hfl).ne_nil
      obtain ⟨v, vs, hv⟩ : ∃ v vs, sw.values = v :: vs := by
        rcases hx : sw.values with _ | ⟨v, vs⟩
        · exact absurd hx (hvals sw (by simp))
        · exact ⟨v, vs, rfl⟩
      rw [hv]
      refine foldl_thenRun_first_err _ st PyErr.typeErr v vs ?_
      have hre : ¬ (rest.isEmpty = true) := by simpa using hrest
      rw [if_neg hre]
    · rw [if_neg hfl, if_neg hfl]
      have hswrt := param_mem_rt_of_not_fl hfl
      obtain ⟨x, hx, hxf⟩ := hbad.rest_fl hswrt
      by_cases hrp : sw.parameter = Parameter.relative_phase ∧
          hasDecrease (sw.values.map convert_phase) = true
      · rw [if_pos hrp, if_pos hrp]
        obtain ⟨i₀, dr, hdi⟩ : ∃ i₀ dr,
            diffNegIdx (sw.values.map convert_phase) = i₀ :: dr := by
          rcases hy : diffNegIdx (sw.values.map convert_phase) with _ | ⟨i₀, dr⟩
          · have h2 := hrp.2
            rw [hasDecrease, hy] at h2
            exact absurd h2 (by simp)
          · exact ⟨i₀, dr, rfl⟩
        have hseg : splitSegments sw.values = sw.values.take (i₀ + 1) ::
            slicesFrom sw.values (i₀ + 1)
              (dr ++ [(sw.values.map convert_phase).length - 1]) := by
          rw [splitSegments, splitPoints, hdi]
          simp [slicesFrom]
        rw [hseg]
        exact foldl_thenRun_first_err _ st PyErr.typeErr _ _ rfl
      · rw [if_neg hrp, if_neg hrp]
        rw [if_neg (by simp [all_rt_false ⟨x, List.mem_cons_of_mem _ hx, hxf⟩])]
  · intro sweepers
    exact ⟨fun h => by simp [orderSweepers, h], fun h => by simp [orderSweepers, h]⟩

/-- Witness for C2: the engine-order list [frequency, lo_frequency] raises
the mixed-sweeper exception with nothing executed; an
attenuation-then-frequency list is kept in its given order. -/
theorem c2_mixed_sweeper_fatal_and_ordering_witness :
    sweep_recursion (fun _ => 0) [0] ⟨100, true⟩
      [⟨Parameter.frequency, [1]⟩, ⟨Parameter.lo_frequency, [2]⟩] ⟨[(0, none)], []⟩ =
      (⟨[(0, none)], []⟩, some PyErr.mixedSweepers) ∧
    orderSweepers [⟨Parameter.attenuation, [1]⟩, ⟨Parameter.frequency, [2]⟩] =
      [⟨Parameter.attenuation, [1]⟩, ⟨Parameter.frequency, [2]⟩] := by
  constructor
  · have h := c2_mixed_sweeper_fatal_and_ordering.1 ⟨Parameter.frequency, [1]⟩
      [⟨Parameter.lo_frequency, [2]⟩] (fun _ => 0) [0] ⟨100, true⟩ ⟨[(0, none)], []⟩
      ⟨[], ⟨Parameter.frequency, [1]⟩, [], ⟨Parameter.lo_frequency, [2]⟩, [],
        rfl, by decide, by decide⟩
      (by
        intro s hs
        fin_cases hs <;> simp)
    rw [h]
    decide
  · exact (c2_mixed_sweeper_fatal_and_ordering.2 _).1 (by decide)

/-! ## C3: relative-phase wraparound splitting -/

theorem getD_take_of_lt (l : List ℚ) (k j : Nat) (hjk : j < k) (hjl : j < l.length) :
    (l.take k).getD j 0 = l.getD j 0 := by
  rw [List.getD_eq_getElem _ _ (by simp [List.length_take]; omega),
    List.getD_eq_getElem _ _ hjl]
  exact List.getElem_take _

theorem getD_drop_add (l : List ℚ) (f j : Nat) (h : f + j < l.length) :
    (l.drop f).getD j 0 = l.getD (f + j) 0 := by
  rw [List.getD_eq_getElem _ _ (by simp [List.length_drop]; omega),
    List.getD_eq_getElem _ _ h]
  exact List.getElem_drop _

theorem getD_map_cp (values : List ℚ) (j : Nat) (hj : j < values.length) :
    (values.map convert_phase).getD j 0 = convert_phase (values.getD j 0) := by
  rw [List.getD_eq_getElem _ _ (by simpa using hj), List.getD_eq_getElem _ _ hj,
    List.getElem_map]

theorem headD_eq_getD (l : List ℚ) : l.headD 0 = l.getD 0 0 := by
  cases l <;> rfl

theorem getLastD_eq_getD_length (l : List ℚ) : l.getLastD 0 = l.getD (l.length - 1) 0 := by
  induction l with
  | nil => rfl
  | cons a t ih =>
    cases t with
    | nil => rfl
    | cons b t2 =>
      rw [List.getLastD_eq_getLast?, List.getLast?_cons_cons, ← List.getLastD_eq_getLast?, ih]
      simp only [List.length_cons]
      rw [show t2.length + 1 + 1 - 1 = t2.length + 1 from rfl,
        show t2.length + 1 - 1 = t2.length from rfl, List.getD_cons_succ]

theorem chain'_all_append_singleton {P : Nat → Prop} :
    ∀ (l : List Nat) (x : Nat), (∀ a ∈ l, P a) →
      List.Chain' (fun a _ => P a) (l ++ [x]) := by
  intro l
  induction l with
  | nil => intro x _; exact List.chain'_singleton x
  | cons a t ih =>
    intro x hP
    rw [List.cons_append]
    exact List.chain'_cons'.mpr
      ⟨fun y _ => hP a (by simp), ih x (fun b hb => hP b (by simp [hb]))⟩

theorem slicesFrom_spec (values : List ℚ) :
    ∀ (pts : List Nat) (fromIdx : Nat),
      List.Pairwise (· < ·) pts →
      (∀ p ∈ pts, p < values.length) →
      (pts = [] → values.length ≤ fromIdx) →
      (∀ plast ∈ pts.getLast?, plast = values.length - 1) →
      (∀ phead ∈ pts.head?, fromIdx ≤ phead) →
      List.Chain' (fun a _ => (values.map convert_phase).getD (a + 1) 0 <
        (values.map convert_phase).getD a 0) pts →
      (∀ j, fromIdx ≤ j → j + 1 < values.length →
        (values.map convert_phase).getD (j + 1) 0 < (values.map convert_phase).getD j 0 →
        j ∈ pts) →
      (slicesFrom values fromIdx pts).flatten = values.drop fromIdx ∧
      (∀ seg ∈ slicesFrom values fromIdx pts, seg ≠ [] ∧
        diffNegIdx (seg.map convert_phase) = []) ∧
      List.Chain' (fun s1 s2 => convert_phase (s2.headD 0) < convert_phase (s1.getLastD 0))
        (slicesFrom values fromIdx pts) := by
  intro pts
  induction pts with
  | nil =>
    intro fromIdx _ _ hemp _ _ _ _
    refine ⟨?_, by simp [slicesFrom], by simp [slicesFrom]⟩
    rw [slicesFrom]
    simp [List.drop_eq_nil_of_le (hemp rfl)]
  | cons idx pts' ih =>
    intro fromIdx hpw hlt hemp hlast hhead hchain hdec
    have hfi : fromIdx ≤ idx := hhead idx (by simp)
    have hidx : idx < values.length := hlt idx (by simp)
    have hpw' : ∀ b ∈ pts', idx < b := (List.pairwise_cons.mp hpw).1
    -- length of the first slice
    have hlen₀ : ((values.drop fromIdx).take (idx + 1 - fromIdx)).length =
        idx + 1 - fromIdx := by
      rw [List.length_take, List.length_drop]
      omega
    -- elements of the first slice, in phase-code space
    have hget₀ : ∀ j, j < idx + 1 - fromIdx →
        (((values.drop fromIdx).take (idx + 1 - fromIdx)).map convert_phase).getD j 0 =
          (values.map convert_phase).getD (fromIdx + j) 0 := by
      intro j hj
      rw [List.map_take, List.map_drop]
      rw [getD_take_of_lt _ _ _ hj (by rw [List.length_drop, List.length_map]; omega),
        getD_drop_add _ _ _ (by rw [List.length_map]; omega)]
    -- the recursive tail
    have htail := ih (idx + 1) ((List.pairwise_cons.mp hpw).2)
      (fun p hp => hlt p (by simp [hp]))
      (fun hp' => by
        have := hlast idx (by simp [hp'])
        omega)
      (fun plast hpl => hlast plast (by
        rcases pts' with _ | ⟨p2, pr⟩
        · simp at hpl
        · rw [List.getLast?_cons_cons]
          exact hpl))
      (fun phead hph => by
        have : phead ∈ pts' := by
          rcases pts' with _ | ⟨p2, pr⟩
          · simp at hph
          · simp at hph
            simp [hph]
        exact hpw' phead this)
      (List.chain'_cons'.mp hchain).2
      (fun j hj hjl hjd => by
        have hmem := hdec j (by omega) hjl hjd
        rcases List.mem_cons.mp hmem with rfl | hmem
        · omega
        · exact hmem)
    -- the first slice is nonempty
    have hne₀ : (values.drop fromIdx).take (idx + 1 - fromIdx) ≠ [] := by
      intro hnil
      have := hlen₀
      rw [hnil] at this
      simp at this
      omega
    -- the first slice has no phase-code decrease
    have hmono₀ : diffNegIdx (((values.drop fromIdx).take (idx + 1 - fromIdx)).map
        convert_phase) = [] := by
      rw [diffNegIdx, List.filter_eq_nil_iff]
      intro j hj
      rw [List.length_map, hlen₀] at hj
      have hj' : j < idx - fromIdx := by
        have := List.mem_range.mp hj
        omega
      rw [hget₀ (j + 1) (by omega), hget₀ j (by omega)]
      simp only [decide_eq_true_eq, not_lt]
      by_contra hcon
      push_neg at hcon
      have hjdec : (values.map convert_phase).getD (fromIdx + j + 1) 0 <
          (values.map convert_phase).getD (fromIdx + j) 0 := by
        have : fromIdx + (j + 1) = fromIdx + j + 1 := by omega
        rw [this] at hcon
        exact hcon
      have hmem := hdec (fromIdx + j) (by omega) (by omega) hjdec
      rcases List.mem_cons.mp hmem with heq | hmem
      · omega
      · have := hpw' _ hmem
        omega
    -- assemble
    rw [slicesFrom]
    refine ⟨?_, ?_, ?_⟩
    · rw [List.flatten_cons, htail.1]
      have harith : fromIdx + (idx + 1 - fromIdx) = idx + 1 := by omega
      calc (values.drop fromIdx).take (idx + 1 - fromIdx) ++ values.drop (idx + 1)
          = (values.drop fromIdx).take (idx + 1 - fromIdx) ++
              ((values.drop fromIdx).drop (idx + 1 - fromIdx)) := by
            rw [List.drop_drop, harith]
        _ = values.drop fromIdx := List.take_append_drop _ _
    · intro seg hseg
      rcases List.mem_cons.mp hseg with rfl | hseg
      · exact ⟨hne₀, hmono₀⟩
      · exact htail.2.1 seg hseg
    · rcases pts' with _ | ⟨idx2, pts''⟩
      · simp only [slicesFrom]
        exact List.chain'_singleton _
      · have hidx2 : idx2 < values.length := hlt idx2 (by simp)
        have hii : idx < idx2 := hpw' idx2 (by simp)
        rw [slicesFrom]
        refine List.chain'_cons'.mpr ⟨?_, ?_⟩
        · intro y hy
          simp only [List.head?_cons, Option.mem_def, Option.some.injEq] at hy
          subst hy
          -- boundary decrease between the first two slices
          have hhd : ((values.drop (idx + 1)).take (idx2 + 1 - (idx + 1))).headD 0 =
              values.getD (idx + 1) 0 := by
            rw [headD_eq_getD,
              getD_take_of_lt _ _ _ (by omega) (by simp [List.length_drop]; omega),
              getD_drop_add _ _ _ (by omega)]
          have hlast₀ : ((values.drop fromIdx).take (idx + 1 - fromIdx)).getLastD 0 =
              values.getD idx 0 := by
            rw [getLastD_eq_getD_length, hlen₀,
              show idx + 1 - fromIdx - 1 = idx - fromIdx from by omega,
              getD_take_of_lt _ _ _ (by omega) (by simp [List.length_drop]; omega),
              getD_drop_add _ _ _ (by omega),
              show fromIdx + (idx - fromIdx) = idx from by omega]
          rw [hhd, hlast₀]
          have hcc := (List.chain'_cons.mp hchain).1
          rw [getD_map_cp _ _ (by omega), getD_map_cp _ _ hidx] at hcc
          exact hcc
        · rw [← slicesFrom]
          exact htail.2.2

/-- `convert_phase` is the identity on values already inside one period. -/
theorem convert_phase_of_lt (v : ℚ) (h0 : 0 ≤ v) (h1 : v < 360) : convert_phase v = v := by
  rw [convert_phase]
  have hf : ⌊v / 360⌋ = 0 := by
    rw [Int.floor_eq_zero_iff, Set.mem_Ico]
    exact ⟨div_nonneg h0 (by norm_num), (div_lt_one (by norm_num)).mpr h1⟩
  rw [hf]
  push_cast
  ring

/-- C3 (code bug): the split arithmetic matches the claim — the sub-sweep
slices concatenate back to the value list, every slice is nonempty with
nondecreasing converted codes, the code decreases across every boundary,
and [350°, 355°, 0°, 5°, 10°] yields exactly [[350°, 355°], [0°, 5°, 10°]]
— but, contrary to the claim, no sub-sweep is ever executed as a recursive
call: the split loop's first call evaluates
`tuple([split_sweeper]) + sweepers[1:]` (a tuple + list concatenation) and
raises `TypeError`, aborting the sweep with the results map and the
execution log untouched. -/
theorem c3_relative_phase_split (values : List ℚ)
    (h : hasDecrease (values.map convert_phase) = true) :
    (splitSegments values).flatten = values ∧
    (∀ seg ∈ splitSegments values, seg ≠ [] ∧
      hasDecrease (seg.map convert_phase) = false) ∧
    List.Chain' (fun s1 s2 => convert_phase (s2.headD 0) < convert_phase (s1.getLastD 0))
      (splitSegments values) ∧
    splitSegments [350, 355, 0, 5, 10] = [[350, 355], [0, 5, 10]] ∧
    (∀ (meas : Nat → Int) (roIds : List Nat) (options : ExecutionParameters)
        (rest : List SweeperM) (st : SweepState),
      sweep_recursion meas roIds options
        (⟨Parameter.relative_phase, values⟩ :: rest) st =
        (st, some PyErr.typeErr)) := by
  obtain ⟨i₀, dr, hdi⟩ : ∃ i₀ dr, diffNegIdx (values.map convert_phase) = i₀ :: dr := by
    rcases hy : diffNegIdx (values.map convert_phase) with _ | ⟨i₀, dr⟩
    · rw [hasDecrease, hy] at h
      exact absurd h (by simp)
    · exact ⟨i₀, dr, rfl⟩
  have hi₀mem : i₀ ∈ diffNegIdx (values.map convert_phase) := hdi ▸ List.mem_cons_self _ _
  have hsub : ∀ j ∈ diffNegIdx (values.map convert_phase), j < values.length - 1 := by
    intro j hj
    have := List.mem_range.mp (List.mem_of_mem_filter hj)
    simpa using this
  have hvlen : 2 ≤ values.length := by
    have := hsub i₀ hi₀mem
    omega
  have hpw : List.Pairwise (· < ·) (splitPoints (values.map convert_phase)) := by
    rw [splitPoints, List.pairwise_append]
    refine ⟨List.Pairwise.filter _ (List.pairwise_lt_range _), by simp, ?_⟩
    intro a ha b hb
    simp only [List.mem_singleton] at hb
    subst hb
    have := hsub a ha
    rw [List.length_map]
    omega
  have hlt : ∀ p ∈ splitPoints (values.map convert_phase), p < values.length := by
    intro p hp
    rw [splitPoints] at hp
    rcases List.mem_append.mp hp with hp' | hp'
    · have := hsub p hp'; omega
    · simp only [List.mem_singleton] at hp'
      subst hp'
      rw [List.length_map]
      omega
  have hchain : List.Chain' (fun a _ => (values.map convert_phase).getD (a + 1) 0 <
      (values.map convert_phase).getD a 0) (splitPoints (values.map convert_phase)) := by
    rw [splitPoints]
    refine chain'_all_append_singleton _ _ ?_
    intro a ha
    have := (List.mem_filter.mp ha).2
    simpa using this
  have hmaster := slicesFrom_spec values (splitPoints (values.map convert_phase)) 0
    hpw hlt
    (by intro hc; rw [splitPoints] at hc; simp at hc)
    (by
      intro plast hpl
      rw [splitPoints, List.getLast?_concat] at hpl
      simp only [Option.mem_def, Option.some.injEq] at hpl
      rw [← hpl, List.length_map])
    (fun phead _ => Nat.zero_le _)
    hchain
    (by
      intro j _ hjl hjd
      rw [splitPoints]
      refine List.mem_append.mpr (Or.inl ?_)
      exact List.mem_filter.mpr
        ⟨List.mem_range.mpr (by rw [List.length_map]; omega), by simpa using hjd⟩)
  refine ⟨by simpa using hmaster.1, ?_, hmaster.2.2, ?_, ?_⟩
  · intro seg hseg
    obtain ⟨h1, h2⟩ := hmaster.2.1 seg hseg
    exact ⟨h1, by rw [hasDecrease, h2]; rfl⟩
  · have e1 : convert_phase 350 = 350 := convert_phase_of_lt 350 (by norm_num) (by norm_num)
    have e2 : convert_phase 355 = 355 := convert_phase_of_lt 355 (by norm_num) (by norm_num)
    have e3 : convert_phase 0 = 0 := convert_phase_of_lt 0 (by norm_num) (by norm_num)
    have e4 : convert_phase 5 = 5 := convert_phase_of_lt 5 (by norm_num) (by norm_num)
    have e5 : convert_phase 10 = 10 := convert_phase_of_lt 10 (by norm_num) (by norm_num)
    have hmap : (([350, 355, 0, 5, 10] : List ℚ).map convert_phase) =
        [350, 355, 0, 5, 10] := by
      simp [e1, e2, e3, e4, e5]
    rw [splitSegments, hmap]
    decide
  · intro meas roIds options rest st
    simp only [sweep_recursion]
    rw [if_neg (by decide), if_pos ⟨trivial, h⟩]
    have hseg : splitSegments values = values.take (i₀ + 1) ::
        slicesFrom values (i₀ + 1) (dr ++ [(values.map convert_phase).length - 1]) := by
      rw [splitSegments, splitPoints, hdi]
      simp [slicesFrom]
    rw [hseg]
    exact foldl_thenRun_first_err _ st PyErr.typeErr _ _ rfl

/-- Witness for C3 at the claim's wraparound list, including the aborted
engine run: the sweep raises `TypeError` with nothing executed. -/
theorem c3_relative_phase_split_witness :
    (splitSegments [350, 355, 0, 5, 10] : List (List ℚ)).flatten = [350, 355, 0, 5, 10] ∧
    splitSegments ([350, 355, 0, 5, 10] : List ℚ) = [[350, 355], [0, 5, 10]] ∧
    sweep_recursion (fun _ => 0) [0] ⟨100, true⟩
      [⟨Parameter.relative_phase, [350, 355, 0, 5, 10]⟩] ⟨[(0, none)], []⟩ =
      (⟨[(0, none)], []⟩, some PyErr.typeErr) := by
  have hmap : (([350, 355, 0, 5, 10] : List ℚ).map convert_phase) =
      [350, 355, 0, 5, 10] := by
    simp [convert_phase_of_lt 350 (by norm_num) (by norm_num),
      convert_phase_of_lt 355 (by norm_num) (by norm_num),
      convert_phase_of_lt 0 (by norm_num) (by norm_num),
      convert_phase_of_lt 5 (by norm_num) (by norm_num),
      convert_phase_of_lt 10 (by norm_num) (by norm_num)]
  have hd : hasDecrease (([350, 355, 0, 5, 10] : List ℚ).map convert_phase) = true := by
    rw [hmap]
    decide
  have h := c3_relative_phase_split [350, 355, 0, 5, 10] hd
  exact ⟨h.1, h.2.2.2.1, h.2.2.2.2 (fun _ => 0) [0] ⟨100, true⟩ [] ⟨[(0, none)], []⟩⟩

/-! ## C5: the ShortestPaths router respects connectivity -/

theorem adj_symm (E : List (Nat × Nat)) (a b : Nat) : adj E a b = adj E b a := by
  rw [adj, adj, Bool.or_comm]

theorem adj_of_mem {E : List (Nat × Nat)} {a b : Nat} (h : (a, b) ∈ E) :
    adj E a b = true := by
  rw [adj]
  simp [h]

theorem sortPair_adj (E : List (Nat × Nat)) (a b : Nat) :
    adj E (sortPair a b).1 (sortPair a b).2 = adj E a b := by
  rw [sortPair]
  by_cases h : a ≤ b
  · rw [if_pos h]
  · rw [if_neg h, adj_symm]

theorem reduceRepr_spec : ∀ (l E : List (Nat × Nat)),
    ∃ k, k ≤ l.length ∧ reduceRepr l E = l.drop k ∧
      ∀ e ∈ l.take k, adj E e.1 e.2 = true := by
  intro l
  induction l with
  | nil => intro E; exact ⟨0, by simp [reduceRepr]⟩
  | cons e rest ih =>
    intro E
    rw [reduceRepr]
    by_cases h : adj E e.1 e.2 = true
    · rw [if_pos h]
      obtain ⟨k, hk, heq, hall⟩ := ih E
      refine ⟨k + 1, by simp; omega, by simpa using heq, ?_⟩
      intro e' he'
      rcases List.mem_cons.mp (by simpa using he') with rfl | he'
      · exact h
      · exact hall e' he'
    · rw [if_neg h]
      exact ⟨0, by simp⟩

theorem crepr_mem : ∀ (q : List CGate) (r : List (Nat × Nat)),
    create_circuit_repr q = .ok r → ∀ e ∈ r, ∃ a b, CGate.two a b ∈ q ∧ e = sortPair a b := by
  intro q
  induction q with
  | nil =>
    intro r hr e he
    rw [create_circuit_repr] at hr
    cases hr
    simp at he
  | cons g rest ih =>
    intro r hr e he
    cases g with
    | one x =>
      rw [create_circuit_repr] at hr
      obtain ⟨a, b, hab, heq⟩ := ih r hr e he
      exact ⟨a, b, by simp [hab], heq⟩
    | two a b =>
      rw [create_circuit_repr] at hr
      cases hrest : create_circuit_repr rest with
      | error msg => rw [hrest] at hr; cases hr
      | ok r' =>
        rw [hrest] at hr
        cases hr
        rcases List.mem_cons.mp he with rfl | he
        · exact ⟨a, b, by simp, rfl⟩
        · obtain ⟨a', b', hab, heq⟩ := ih r' hrest e he
          exact ⟨a', b', by simp [hab], heq⟩
    | multi qs => rw [create_circuit_repr] at hr; cases hr

theorem addGatesGo_spec : ∀ (q : List CGate) (m : Nat) (qm : List Nat)
    (r : List (Nat × Nat)), create_circuit_repr q = .ok r →
    create_circuit_repr (addGatesGo qm q m).2 = .ok (r.drop m) ∧
    ∀ g ∈ (addGatesGo qm q m).1,
      (∃ x, g = .one (lookList qm x)) ∨
      (∃ a b, g = .two (lookList qm a) (lookList qm b) ∧ sortPair a b ∈ r.take m) := by
  intro q
  induction q with
  | nil =>
    intro m qm r hr
    rw [create_circuit_repr] at hr
    cases hr
    rw [addGatesGo]
    exact ⟨by simp [create_circuit_repr], by simp⟩
  | cons g rest ih =>
    intro m qm r hr
    cases g with
    | one x =>
      rw [create_circuit_repr] at hr
      rw [addGatesGo]
      obtain ⟨h1, h2⟩ := ih m qm r hr
      refine ⟨h1, ?_⟩
      intro g hg
      rcases List.mem_cons.mp hg with rfl | hg
      · exact Or.inl ⟨x, rfl⟩
      · exact h2 g hg
    | two a b =>
      rw [create_circuit_repr] at hr
      cases hrest : create_circuit_repr rest with
      | error msg => rw [hrest] at hr; cases hr
      | ok r' =>
        rw [hrest] at hr
        cases hr
        cases m with
        | zero =>
          rw [addGatesGo]
          refine ⟨?_, by simp⟩
          rw [List.drop_zero, create_circuit_repr, hrest]
          rfl
        | succ m' =>
          rw [addGatesGo]
          obtain ⟨h1, h2⟩ := ih m' qm r' hrest
          refine ⟨by simpa using h1, ?_⟩
          intro g hg
          rcases List.mem_cons.mp hg with rfl | hg
          · exact Or.inr ⟨a, b, rfl, by simp⟩
          · rcases h2 g hg with h | ⟨a', b', hg', hmem⟩
            · exact Or.inl h
            · exact Or.inr ⟨a', b', hg', by simp [hmem]⟩
    | multi qs => rw [create_circuit_repr] at hr; cases hr

theorem mem_nbrs {E : List (Nat × Nat)} {x y : Nat} (h : y ∈ nbrs E x) :
    adj E x y = true ∧ ∃ e ∈ E, y = e.1 ∨ y = e.2 := by
  rw [nbrs] at h
  rcases List.mem_append.mp h with h | h
  · obtain ⟨e, he, hy⟩ := List.mem_filterMap.mp h
    by_cases hx : e.1 = x
    · rw [if_pos hx] at hy
      cases hy
      refine ⟨adj_of_mem ?_, ⟨e, he, Or.inr rfl⟩⟩
      have : e = (x, e.2) := by
        rw [← hx]
      rw [← this]
      exact he
    · rw [if_neg hx] at hy
      cases hy
  · obtain ⟨e, he, hy⟩ := List.mem_filterMap.mp h
    by_cases hx : e.2 = x
    · rw [if_pos hx] at hy
      cases hy
      refine ⟨?_, ⟨e, he, Or.inl rfl⟩⟩
      rw [adj_symm]
      refine adj_of_mem ?_
      have : e = (e.1, x) := by
        rw [← hx]
      rw [← this]
      exact he
    · rw [if_neg hx] at hy
      cases hy

theorem simplePathsTo_spec (E : List (Nat × Nat)) (t : Nat)
    (hirr : ∀ e ∈ E, e.1 ≠ e.2) :
    ∀ (fuel x : Nat) (visited : List Nat) (p : List Nat), x ∉ visited →
      p ∈ simplePathsTo E t fuel x visited →
      p ≠ [] ∧ p.head? = some x ∧
      List.Chain' (fun a b => adj E a b = true) p ∧ p.Nodup ∧
      (∀ y ∈ p, y ∉ visited) ∧
      (∀ y ∈ p, y = x ∨ ∃ e ∈ E, y = e.1 ∨ y = e.2) := by
  intro fuel
  induction fuel with
  | zero =>
    intro x visited p hxv hp
    rw [simplePathsTo] at hp
    by_cases hx : x = t
    · rw [if_pos hx] at hp
      simp only [List.mem_singleton] at hp
      subst hp
      exact ⟨by simp, by simp, by simp, by simp, by simpa using hxv, by simp⟩
    · rw [if_neg hx] at hp
      simp at hp
  | succ fuel ih =>
    intro x visited p hxv hp
    rw [simplePathsTo] at hp
    by_cases hx : x = t
    · rw [if_pos hx] at hp
      simp only [List.mem_singleton] at hp
      subst hp
      exact ⟨by simp, by simp, by simp, by simp, by simpa using hxv, by simp⟩
    · rw [if_neg hx] at hp
      obtain ⟨y, hy, hp'⟩ := List.mem_flatMap.mp hp
      obtain ⟨p', hp'', rfl⟩ := List.mem_map.mp hp'
      have hyfacts := List.mem_filter.mp hy
      have hynv : y ∉ visited := by simpa using hyfacts.2
      have hnb := mem_nbrs hyfacts.1
      have hyx : y ≠ x := by
        intro h
        subst h
        rw [adj] at hnb
        rcases Bool.or_eq_true _ _ |>.mp hnb.1 with h | h
        · exact absurd rfl (hirr _ (by simpa using (decide_eq_true_eq.mp h)))
        · exact absurd rfl (hirr _ (by simpa using (decide_eq_true_eq.mp h)))
      have hyv' : y ∉ x :: visited := by
        intro h
        rcases List.mem_cons.mp h with h | h
        · exact hyx h
        · exact hynv h
      obtain ⟨hne, hhead, hchain, hnd, hvis, hend⟩ := ih y (x :: visited) p' hyv' hp''
      have hxp' : x ∉ p' := by
        intro h
        exact (hvis x h) (by simp)
      refine ⟨by simp, by simp, ?_, ?_, ?_, ?_⟩
      · refine List.chain'_cons'.mpr ⟨?_, hchain⟩
        intro z hz
        rw [hhead] at hz
        simp only [Option.mem_def, Option.some.injEq] at hz
        subst hz
        exact hnb.1
      · exact List.nodup_cons.mpr ⟨hxp', hnd⟩
      · intro z hz
        rcases List.mem_cons.mp hz with rfl | hz
        · exact hxv
        · intro hc
          exact (hvis z hz) (by simp [hc])
      · intro z hz
        rcases List.mem_cons.mp hz with rfl | hz
        · exact Or.inl rfl
        · rcases hend z hz with rfl | h
          · exact Or.inr hnb.2
          · exact Or.inr h

theorem simplePathsTo_last (E : List (Nat × Nat)) (t : Nat) :
    ∀ (fuel x : Nat) (visited : List Nat) (p : List Nat),
      p ∈ simplePathsTo E t fuel x visited → p.getLast? = some t := by
  intro fuel
  induction fuel with
  | zero =>
    intro x visited p hp
    rw [simplePathsTo] at hp
    by_cases hx : x = t
    · rw [if_pos hx] at hp
      simp only [List.mem_singleton] at hp
      subst hp
      simp [hx]
    · rw [if_neg hx] at hp
      simp at hp
  | succ fuel ih =>
    intro x visited p hp
    rw [simplePathsTo] at hp
    by_cases hx : x = t
    · rw [if_pos hx] at hp
      simp only [List.mem_singleton] at hp
      subst hp
      simp [hx]
    · rw [if_neg hx] at hp
      obtain ⟨y, _, hp'⟩ := List.mem_flatMap.mp hp
      obtain ⟨p', hp'', rfl⟩ := List.mem_map.mp hp'
      have hlast := ih y _ p' hp''
      have hne : p' ≠ [] := by
        intro h
        rw [h] at hlast
        simp at hlast
      rw [List.getLast?_eq_getLast _ (by simp), List.getLast_cons hne,
        ← List.getLast?_eq_getLast p' hne]
      exact hlast

theorem allShortestPaths_sub {E : List (Nat × Nat)} {s t fuel : Nat} {p : List Nat}
    (h : p ∈ allShortestPaths E s t fuel) : p ∈ simplePathsTo E t fuel s [] := by
  rw [allShortestPaths] at h
  cases hm : (List.map List.length (simplePathsTo E t fuel s [])).min? with
  | none => rw [hm] at h; simp at h
  | some m =>
    rw [hm] at h
    exact (List.mem_filter.mp h).1

theorem pairwiseList_rel {R : Nat → Nat → Prop} :
    ∀ (l : List Nat), List.Chain' R l → ∀ e ∈ pairwiseList l, R e.1 e.2 := by
  intro l
  induction l with
  | nil => intro _ e he; simp [pairwiseList] at he
  | cons a tl ih =>
    intro hc e he
    cases tl with
    | nil => simp [pairwiseList] at he
    | cons b t2 =>
      rw [pairwiseList] at he
      rcases List.mem_cons.mp he with rfl | he
      · exact (List.chain'_cons.mp hc).1
      · exact ih (List.chain'_cons.mp hc).2 e he

theorem map_list_spec (p : List Nat) (c : List (Nat × Nat) × Nat)
    (hc : c ∈ map_list p) :
    ∃ vals : List Nat, c.1 = p.zip vals ∧ vals.Perm p ∧ vals.length = p.length := by
  rw [map_list] at hc
  obtain ⟨i, hi, heq⟩ := List.mem_map.mp hc
  have hir : i < p.length - 1 := List.mem_range.mp hi
  obtain ⟨a, rest, rfl⟩ : ∃ a rest, p = a :: rest := by
    cases p with
    | nil => simp at hir
    | cons a rest => exact ⟨a, rest, rfl⟩
  have hrest : rest ≠ [] := by
    intro h
    rw [h] at hir
    simp at hir
  have hL : (a :: rest).getLastD 0 = rest.getLast hrest := by
    rw [List.getLastD_eq_getLast?, List.getLast?_eq_getLast _ (by simp),
      List.getLast_cons hrest]
    rfl
  refine ⟨rest.dropLast.take i ++ [a, (a :: rest).getLastD 0] ++ rest.dropLast.drop i,
    ?_, ?_, ?_⟩
  · rw [← heq]
    rfl
  · rw [hL]
    have hassoc1 : rest.dropLast.take i ++ [a, rest.getLast hrest] ++ rest.dropLast.drop i =
        rest.dropLast.take i ++ ([a, rest.getLast hrest] ++ rest.dropLast.drop i) :=
      List.append_assoc _ _ _
    have p1 : List.Perm
        (rest.dropLast.take i ++ ([a, rest.getLast hrest] ++ rest.dropLast.drop i))
        (([a, rest.getLast hrest] ++ rest.dropLast.drop i) ++ rest.dropLast.take i) :=
      List.perm_append_comm
    have hassoc2 : ([a, rest.getLast hrest] ++ rest.dropLast.drop i) ++ rest.dropLast.take i =
        [a, rest.getLast hrest] ++ (rest.dropLast.drop i ++ rest.dropLast.take i) :=
      List.append_assoc _ _ _
    have p2 : List.Perm (rest.dropLast.drop i ++ rest.dropLast.take i)
        (rest.dropLast.take i ++ rest.dropLast.drop i) := List.perm_append_comm
    have p3 : List.Perm
        ([a, rest.getLast hrest] ++ (rest.dropLast.drop i ++ rest.dropLast.take i))
        ([a, rest.getLast hrest] ++ rest.dropLast) := by
      have h3 := List.Perm.append_left [a, rest.getLast hrest] p2
      rw [List.take_append_drop] at h3
      exact h3
    have p4 : List.Perm ([rest.getLast hrest] ++ rest.dropLast)
        (rest.dropLast ++ [rest.getLast hrest]) := List.perm_append_comm
    have p5 : List.Perm ([a, rest.getLast hrest] ++ rest.dropLast) (a :: rest) := by
      have h5 : List.Perm (a :: ([rest.getLast hrest] ++ rest.dropLast))
          (a :: (rest.dropLast ++ [rest.getLast hrest])) := List.Perm.cons a p4
      rw [List.dropLast_append_getLast hrest] at h5
      exact h5
    rw [hassoc1]
    refine p1.trans ?_
    rw [hassoc2]
    exact p3.trans p5
  · have hrl : 1 ≤ rest.length := by
      cases rest
      · exact absurd rfl hrest
      · simp
    simp only [List.length_cons] at hir
    have h1 : (rest.dropLast.take i).length = i := by
      rw [List.length_take, List.length_dropLast]
      omega
    have h2 : (rest.dropLast.drop i).length = rest.length - 1 - i := by
      rw [List.length_drop, List.length_dropLast]
    rw [List.length_append, List.length_append, h1, h2, List.length_cons]
    simp only [List.length_cons, List.length_nil]
    omega

/-! ## C5: qubit-map update and relabelling lookups -/

theorem foldl_set_length {bta : Type} (pos val : bta → Nat) :
    ∀ (m : List bta) (init : List Nat),
      (m.foldl (fun acc kv => acc.set (pos kv) (val kv)) init).length = init.length := by
  intro m
  induction m with
  | nil => intro init; rfl
  | cons kv rest ih =>
    intro init
    rw [List.foldl_cons, ih, List.length_set]

theorem foldl_set_getD_not_mem {bta : Type} (pos val : bta → Nat) :
    ∀ (m : List bta) (init : List Nat) (p d : Nat), (∀ kv ∈ m, pos kv ≠ p) →
      (m.foldl (fun acc kv => acc.set (pos kv) (val kv)) init).getD p d = init.getD p d := by
  intro m
  induction m with
  | nil => intro init p d _; rfl
  | cons kv rest ih =>
    intro init p d h
    rw [List.foldl_cons, ih _ _ _ (fun kv2 hkv2 => h kv2 (List.mem_cons_of_mem _ hkv2)),
      List.getD_eq_getElem?_getD, List.getD_eq_getElem?_getD,
      List.getElem?_set_ne (h kv (by simp))]

theorem foldl_set_getD_of_mem {bta : Type} (pos val : bta → Nat) :
    ∀ (m : List bta) (init : List Nat) (kv : bta) (d : Nat), kv ∈ m →
      (m.map pos).Nodup → pos kv < init.length →
      (m.foldl (fun acc kv => acc.set (pos kv) (val kv)) init).getD (pos kv) d = val kv := by
  intro m
  induction m with
  | nil => intro init kv d h; intro _ _; simp at h
  | cons kv0 rest ih =>
    intro init kv d hmem hnd hlt
    rw [List.map_cons, List.nodup_cons] at hnd
    rw [List.foldl_cons]
    rcases List.mem_cons.mp hmem with rfl | hmem
    · have hnotin : ∀ kv2 ∈ rest, pos kv2 ≠ pos kv := by
        intro kv2 h2 hcon
        exact hnd.1 (hcon ▸ List.mem_map.mpr ⟨kv2, h2, rfl⟩)
      rw [foldl_set_getD_not_mem pos val rest _ _ _ hnotin,
        List.getD_eq_getElem?_getD, List.getElem?_set_self hlt]
      rfl
    · exact ih _ kv d hmem hnd.2 (by rw [List.length_set]; exact hlt)

theorem lookupMap_of_not_mem {m : List (Nat × Nat)} {x : Nat}
    (h : x ∉ m.map Prod.fst) : lookupMap m x = x := by
  rw [lookupMap]
  cases hf : m.find? (fun kv => kv.1 == x) with
  | none => rfl
  | some kv =>
    exfalso
    have hm := List.mem_of_find?_eq_some hf
    have hx : kv.1 = x := by simpa using List.find?_some hf
    exact h (List.mem_map.mpr ⟨kv, hm, hx⟩)

theorem lookupMap_eq_of_mem : ∀ {m : List (Nat × Nat)} {k v : Nat},
    (m.map Prod.fst).Nodup → (k, v) ∈ m → lookupMap m k = v := by
  intro m
  induction m with
  | nil => intro k v _ h; simp at h
  | cons kv0 rest ih =>
    intro k v hnd h
    rw [List.map_cons, List.nodup_cons] at hnd
    rcases List.mem_cons.mp h with rfl | hmem
    · rw [lookupMap, List.find?_cons_of_pos _ (by simp)]
    · have hne : ¬ ((kv0.1 == k) = true) := by
        simp only [beq_iff_eq]
        intro hc
        exact hnd.1 (hc ▸ List.mem_map.mpr ⟨(k, v), hmem, rfl⟩)
      have hstep : List.find? (fun kv => kv.1 == k) (kv0 :: rest) =
          List.find? (fun kv => kv.1 == k) rest := List.find?_cons_of_neg rest hne
      rw [lookupMap, hstep, ← lookupMap]
      exact ih hnd.2 hmem

theorem lookupMap_mem_cases (m : List (Nat × Nat)) (x : Nat) :
    lookupMap m x = x ∨ ∃ kv ∈ m, kv.1 = x ∧ lookupMap m x = kv.2 := by
  rw [lookupMap]
  cases hf : m.find? (fun kv => kv.1 == x) with
  | none => exact Or.inl rfl
  | some kv =>
    exact Or.inr ⟨kv, List.mem_of_find?_eq_some hf,
      by simpa using List.find?_some hf, rfl⟩

theorem updateQubitMap_length (qm : List Nat) (m : List (Nat × Nat)) :
    (updateQubitMap qm m).length = qm.length :=
  foldl_set_length Prod.snd (fun kv => lookList qm kv.1) m qm

theorem updateQubitMap_lookup (qm : List Nat) (m : List (Nat × Nat))
    (hkeys : (m.map Prod.fst).Nodup)
    (hvals : (m.map Prod.snd).Nodup)
    (hvlt : ∀ v ∈ m.map Prod.snd, v < qm.length)
    (hset : ∀ y, y ∈ m.map Prod.snd ↔ y ∈ m.map Prod.fst)
    (x : Nat) :
    lookList (updateQubitMap qm m) (lookupMap m x) = lookList qm x := by
  by_cases hx : x ∈ m.map Prod.fst
  · obtain ⟨kv, hkv, hfst⟩ := List.mem_map.mp hx
    have hlook : lookupMap m x = kv.2 := by
      refine lookupMap_eq_of_mem hkeys ?_
      have : (kv.1, kv.2) = kv := rfl
      rw [hfst] at this
      rw [this]
      exact hkv
    rw [hlook, ← hfst]
    exact foldl_set_getD_of_mem Prod.snd (fun kv => lookList qm kv.1) m qm kv kv.2
      hkv hvals (hvlt _ (List.mem_map.mpr ⟨kv, hkv, rfl⟩))
  · rw [lookupMap_of_not_mem hx]
    refine foldl_set_getD_not_mem Prod.snd (fun kv => lookList qm kv.1) m qm x x ?_
    intro kv hkv hc
    exact hx ((hset x).mp (hc ▸ List.mem_map.mpr ⟨kv, hkv, rfl⟩))

theorem zip_mem_getElem : ∀ {p vals : List Nat} {a b : Nat},
    (a, b) ∈ p.zip vals →
    ∃ i, ∃ hip : i < p.length, ∃ hiv : i < vals.length, p[i] = a ∧ vals[i] = b := by
  intro p
  induction p with
  | nil => intro vals a b hm; simp at hm
  | cons x rest ih =>
    intro vals a b hm
    cases vals with
    | nil => simp at hm
    | cons y vrest =>
      rw [List.zip_cons_cons] at hm
      rcases List.mem_cons.mp hm with heq | hm
      · obtain ⟨h1, h2⟩ := Prod.mk.injEq .. ▸ heq
        exact ⟨0, by simp, by simp, by simpa using ⟨h1.symm, h2.symm⟩⟩
      · obtain ⟨i, hip, hiv, hpa, hvb⟩ := ih hm
        exact ⟨i + 1, by simpa using hip, by simpa using hiv, by simpa using hpa,
          by simpa using hvb⟩

theorem lookupMap_zip_inj {p vals : List Nat} (hlen : vals.length = p.length)
    (hpnd : p.Nodup) (hvnd : vals.Nodup) (hperm : vals.Perm p)
    {a b : Nat} (hne : a ≠ b) :
    lookupMap (p.zip vals) a ≠ lookupMap (p.zip vals) b := by
  have hkeys : (p.zip vals).map Prod.fst = p := List.map_fst_zip _ _ (le_of_eq hlen.symm)
  have hkeysnd : ((p.zip vals).map Prod.fst).Nodup := by rw [hkeys]; exact hpnd
  have hmemlook : ∀ x ∈ p, ∃ i, ∃ hip : i < p.length, ∃ hiv : i < vals.length,
      p[i] = x ∧ lookupMap (p.zip vals) x = vals[i] := by
    intro x hx
    obtain ⟨i, hip, hgx⟩ := List.getElem_of_mem hx
    have hiv : i < vals.length := by omega
    have hziv : i < (p.zip vals).length := by rw [List.length_zip]; omega
    have hze : (p.zip vals)[i] = (p[i], vals[i]) := List.getElem_zip
    have hz : (p[i], vals[i]) ∈ p.zip vals := hze ▸ List.getElem_mem hziv
    exact ⟨i, hip, hiv, hgx, by
      rw [hgx] at hz
      exact lookupMap_eq_of_mem hkeysnd hz⟩
  by_cases ha : a ∈ p <;> by_cases hb : b ∈ p
  · obtain ⟨i, hip, hiv, hpi, hla⟩ := hmemlook a ha
    obtain ⟨j, hjp, hjv, hpj, hlb⟩ := hmemlook b hb
    rw [hla, hlb]
    intro hc
    have hij : i ≠ j := by
      intro hijc
      exact hne (hpi ▸ hijc ▸ hpj)
    exact hij ((List.Nodup.getElem_inj_iff hvnd).mp hc)
  · obtain ⟨i, hip, hiv, hpi, hla⟩ := hmemlook a ha
    rw [hla, lookupMap_of_not_mem (by rw [hkeys]; exact hb)]
    intro hc
    exact hb (hperm.mem_iff.mp (hc ▸ List.getElem_mem hiv))
  · obtain ⟨j, hjp, hjv, hpj, hlb⟩ := hmemlook b hb
    rw [hlb, lookupMap_of_not_mem (by rw [hkeys]; exact ha)]
    intro hc
    exact ha (hperm.mem_iff.mp (hc ▸ List.getElem_mem hjv))
  · rw [lookupMap_of_not_mem (by rw [hkeys]; exact ha),
      lookupMap_of_not_mem (by rw [hkeys]; exact hb)]
    exact hne

theorem adj_edge_cases {E : List (Nat × Nat)} {a b : Nat} (h : adj E a b = true) :
    (a, b) ∈ E ∨ (b, a) ∈ E := by
  rw [adj] at h
  rcases Bool.or_eq_true _ _ |>.mp h with h | h
  · exact Or.inl (decide_eq_true_eq.mp h)
  · exact Or.inr (decide_eq_true_eq.mp h)

theorem adj_bound {E : List (Nat × Nat)} {n : Nat}
    (hE : ∀ e ∈ E, e.1 < n ∧ e.2 < n) {a b : Nat} (h : adj E a b = true) :
    a < n ∧ b < n := by
  rcases adj_edge_cases h with h | h
  · exact hE _ h
  · exact ⟨(hE _ h).2, (hE _ h).1⟩

theorem foldl_best_extract {cty : Type} (g : cty → BestCand) (wt : cty → Nat)
    (b : BestCand) :
    ∀ (l : List cty) (acc : Nat × Option BestCand),
      (l.foldl (fun acc c => if wt c < acc.1 then (wt c, some (g c)) else acc) acc).2 =
        some b →
      acc.2 = some b ∨ ∃ c ∈ l, b = g c := by
  intro l
  induction l with
  | nil => intro acc h; exact Or.inl h
  | cons c rest ih =>
    intro acc h
    rw [List.foldl_cons] at h
    rcases ih _ h with h2 | ⟨c2, hc2, rfl⟩
    · by_cases hlt : wt c < acc.1
      · rw [if_pos hlt] at h2
        exact Or.inr ⟨c, by simp, (Option.some.inj h2).symm⟩
      · rw [if_neg hlt] at h2
        exact Or.inl h2
    · exact Or.inr ⟨c2, by simp [hc2], rfl⟩

theorem map_getD_range (l : List Nat) :
    (List.range l.length).map (fun i => l.getD i 0) = l := by
  refine List.ext_getElem (by simp) ?_
  intro i h1 h2
  rw [List.getElem_map, List.getElem_range, List.getD_eq_getElem l 0 h2]

instance keyleTotal (l : List Nat) : IsTotal Nat (keyle l) :=
  ⟨fun _ _ => Nat.le_total _ _⟩

instance keyleTrans (l : List Nat) : IsTrans Nat (keyle l) :=
  ⟨fun _ _ _ h1 h2 => Nat.le_trans h1 h2⟩

theorem argsort_inverse (l : List Nat) (n : Nat) (hperm : l.Perm (List.range n))
    (p : Nat) (hp : p < n) :
    lookList (argsortList l) (lookList l p) = p := by
  have hlen : l.length = n := by rw [hperm.length_eq, List.length_range]
  have hs : (argsortList l).Perm (List.range n) := by
    rw [argsortList, hlen]
    exact List.perm_insertionSort _ _
  have hslen : (argsortList l).length = n := by rw [hs.length_eq, List.length_range]
  have hsort : List.Sorted (keyle l) (argsortList l) := List.sorted_insertionSort _ _
  have hmapsorted : List.Sorted (· ≤ ·) ((argsortList l).map (fun i => l.getD i 0)) := by
    rw [List.Sorted, List.pairwise_map]
    exact hsort
  have hmapperm : ((argsortList l).map (fun i => l.getD i 0)).Perm (List.range n) := by
    refine (hs.map _).trans ?_
    have : (List.range n).map (fun i => l.getD i 0) = l := by
      rw [← hlen]
      exact map_getD_range l
    rw [this]
    exact hperm
  have hmapeq : (argsortList l).map (fun i => l.getD i 0) = List.range n :=
    @List.eq_of_perm_of_sorted ℕ (· ≤ ·) inferInstance _ _ hmapperm hmapsorted
      (List.pairwise_le_range n)
  have hpl : p < l.length := by omega
  have hvp : l[p] < n := by
    have hm : l[p] ∈ l := List.getElem_mem hpl
    exact List.mem_range.mp (hperm.mem_iff.mp hm)
  have hvs : l[p] < (argsortList l).length := by omega
  have hsv : (argsortList l)[l[p]] < n := by
    have hm : (argsortList l)[l[p]] ∈ argsortList l := List.getElem_mem hvs
    exact List.mem_range.mp (hs.mem_iff.mp hm)
  have hkey : l.getD ((argsortList l)[l[p]]) 0 = l[p] := by
    have h1 : ((argsortList l).map (fun i => l.getD i 0))[l[p]]? =
        (List.range n)[l[p]]? := by
      rw [hmapeq]
    rw [List.getElem?_map, List.getElem?_eq_getElem hvs, List.getElem?_range hvp] at h1
    simpa using h1
  have hibnd2 : (argsortList l)[l[p]] < l.length := by omega
  have hgetD : l.getD ((argsortList l)[l[p]]) 0 = l[(argsortList l)[l[p]]] :=
    List.getD_eq_getElem l 0 hibnd2
  have hnd : l.Nodup := hperm.symm.nodup (List.nodup_range n)
  have hfin : (argsortList l)[l[p]] = p := by
    have hibnd : (argsortList l)[l[p]] < l.length := by omega
    exact (@List.Nodup.getElem_inj_iff ℕ l hnd _ hibnd _ hpl).mp (by rw [← hgetD, hkey])
  rw [lookList, lookList, List.getD_eq_getElem l p hpl,
    List.getD_eq_getElem (argsortList l) l[p] hvs]
  exact hfin

theorem path_facts {conn : Connectivity} {argInv : List Nat} {st : RouterState}
    (hinv : RouterInv conn argInv st) {e : Nat × Nat} {p : List Nat}
    (hhead : (reduceRepr st.crepr st.graph).head? = some e)
    (hp : p ∈ allShortestPaths st.graph e.1 e.2 conn.n) :
    p ≠ [] ∧ p.head? = some e.1 ∧
    List.Chain' (fun a b => adj st.graph a b = true) p ∧ p.Nodup ∧
    (∀ y ∈ p, y < conn.n) := by
  have hsub := allShortestPaths_sub hp
  obtain ⟨hne, hhd, hchain, hnd, _, hends⟩ :=
    simplePathsTo_spec st.graph e.2 hinv.gIrr conn.n e.1 [] p (by simp) hsub
  refine ⟨hne, hhd, hchain, hnd, ?_⟩
  intro y hy
  rcases hends y hy with rfl | ⟨e2, he2, hy2⟩
  · obtain ⟨k, hk, hred, _⟩ := reduceRepr_spec st.crepr st.graph
    rw [hred] at hhead
    have hmem : e ∈ st.crepr := by
      cases hd : st.crepr.drop k with
      | nil => rw [hd] at hhead; cases hhead
      | cons a tl =>
        rw [hd] at hhead
        have hae : a = e := by simpa using hhead
        subst hae
        have hmd : a ∈ List.drop k st.crepr := by
          rw [hd]
          exact List.mem_cons_self a tl
        exact List.mem_of_mem_drop hmd
    exact (hinv.rBound e hmem).1
  · rcases hy2 with rfl | rfl
    · exact (hinv.gBound e2 he2).1
    · exact (hinv.gBound e2 he2).2

theorem relocate_spec (conn_n : Nat) (st : RouterState)
    (out : RouterState × List (Nat × Nat) × List Nat × Nat)
    (h : relocate conn_n st = some out) :
    ∃ e p mi,
      (reduceRepr st.crepr st.graph).head? = some e ∧
      p ∈ allShortestPaths st.graph e.1 e.2 conn_n ∧
      mi ∈ map_list p ∧
      out.1.graph = relabelEdges st.graph mi.1 ∧
      out.1.qubitMap = st.qubitMap ∧
      out.1.crepr = reduceRepr st.crepr (relabelEdges st.graph mi.1) ∧
      out.1.queueRest = st.queueRest ∧
      out.1.transpiled = st.transpiled ∧
      out.2.1 = mi.1 ∧ out.2.2.1 = p ∧ out.2.2.2 = mi.2 := by
  simp only [relocate] at h
  split at h
  · cases h
  · rename_i e rest hcirc
    split at h
    · cases h
    · rename_i p0 prest hpl
      split at h
      · cases h
      · rename_i b hbest
        have hout := Option.some.inj h
        rcases foldl_best_extract
            (fun (c : List Nat × List (Nat × Nat) × Nat) =>
              ⟨relabelEdges st.graph c.2.1, c.2.1,
                reduceRepr st.crepr (relabelEdges st.graph c.2.1), c.1, c.2.2⟩)
            (fun (c : List Nat × List (Nat × Nat) × Nat) =>
              (reduceRepr st.crepr (relabelEdges st.graph c.2.1)).length)
            b _ _ hbest with hnone | ⟨c, hc, hbc⟩
        · exact absurd hnone (by simp)
        · obtain ⟨p1, hp1, hcm⟩ := List.mem_flatMap.mp hc
          obtain ⟨mi, hmi, hceq⟩ := List.mem_map.mp hcm
          subst hceq
          subst hbc
          subst hout
          exact ⟨e, p1, mi, by rw [hcirc]; rfl, hp1, hmi,
            rfl, rfl, rfl, rfl, rfl, rfl, rfl, rfl⟩

theorem transpiler_step_inv {conn : Connectivity} {argInv : List Nat}
    {st st2 : RouterState} (hinv : RouterInv conn argInv st)
    (hstep : transpiler_step conn.n st = some st2) :
    RouterInv conn argInv st2 := by
  simp only [transpiler_step] at hstep
  split at hstep
  · cases hstep
  · rename_i st1 mapping path mp hrel
    obtain ⟨e, p, mi, hhead, hp, hmi, hg, hqm, hcr, hqr, htr, hm1, hp1, hmp1⟩ :=
      relocate_spec conn.n st _ hrel
    have hm1' : mapping = mi.1 := hm1
    have hp1' : path = p := hp1
    have hmp1' : mp = mi.2 := hmp1
    subst hm1'
    subst hp1'
    subst hmp1'
    have hg' : st1.graph = relabelEdges st.graph mi.1 := hg
    have hqm' : st1.qubitMap = st.qubitMap := hqm
    have hcr' : st1.crepr = reduceRepr st.crepr (relabelEdges st.graph mi.1) := hcr
    have hqr' : st1.queueRest = st.queueRest := hqr
    have htr' : st1.transpiled = st.transpiled := htr
    rw [hg', hqm', hcr', hqr', htr'] at hstep
    obtain ⟨vals, hzip, hvperm, hvlen⟩ := map_list_spec path mi hmi
    obtain ⟨hpne, hphd, hpchain, hpnd, hpbound⟩ := path_facts hinv hhead hp
    have hvnd : vals.Nodup := hvperm.symm.nodup hpnd
    have hkeysm : mi.1.map Prod.fst = path := by
      rw [hzip]
      exact List.map_fst_zip _ _ (le_of_eq hvlen.symm)
    have hvalsm : mi.1.map Prod.snd = vals := by
      rw [hzip]
      exact List.map_snd_zip _ _ (le_of_eq hvlen)
    have hlookup : ∀ x, lookList (updateQubitMap st.qubitMap mi.1) (lookupMap mi.1 x) =
        lookList st.qubitMap x := by
      intro x
      refine updateQubitMap_lookup st.qubitMap mi.1 ?_ ?_ ?_ ?_ x
      · rw [hkeysm]
        exact hpnd
      · rw [hvalsm]
        exact hvnd
      · intro v hv
        rw [hvalsm] at hv
        rw [hinv.qmLen]
        exact hpbound v (hvperm.mem_iff.mp hv)
      · intro y
        rw [hkeysm, hvalsm]
        exact hvperm.mem_iff
    have hlmapbound : ∀ x, x < conn.n → lookupMap mi.1 x < conn.n := by
      intro x hx
      rcases lookupMap_mem_cases mi.1 x with hcase | ⟨kv, hkv, _, hlk⟩
      · rw [hcase]
        exact hx
      · rw [hlk]
        have hv2 : kv.2 ∈ mi.1.map Prod.snd := List.mem_map.mpr ⟨kv, hkv, rfl⟩
        rw [hvalsm] at hv2
        exact hpbound kv.2 (hvperm.mem_iff.mp hv2)
    have hlmapinj : ∀ a b, a ≠ b → lookupMap mi.1 a ≠ lookupMap mi.1 b := by
      intro a b hne
      rw [hzip]
      exact lookupMap_zip_inj hvlen hpnd hvnd hvperm hne
    have hedge : ∀ e2 ∈ relabelEdges st.graph mi.1,
        ∃ e3 ∈ st.graph, e2 = (lookupMap mi.1 e3.1, lookupMap mi.1 e3.2) := by
      intro e2 he2
      rw [relabelEdges] at he2
      obtain ⟨e3, he3, heq⟩ := List.mem_map.mp he2
      exact ⟨e3, he3, heq.symm⟩
    have hinv2 : ∀ a b, adj (relabelEdges st.graph mi.1) a b = true →
        adj conn.edges
          (lookList argInv (lookList (updateQubitMap st.qubitMap mi.1) a))
          (lookList argInv (lookList (updateQubitMap st.qubitMap mi.1) b)) = true := by
      intro a b hab
      rcases adj_edge_cases hab with hmem | hmem
      · obtain ⟨e3, he3, heq⟩ := hedge _ hmem
        obtain ⟨h1, h2⟩ := Prod.mk.injEq .. ▸ heq
        rw [h1, h2, hlookup, hlookup]
        exact hinv.inv e3.1 e3.2 (adj_of_mem he3)
      · obtain ⟨e3, he3, heq⟩ := hedge _ hmem
        obtain ⟨h1, h2⟩ := Prod.mk.injEq .. ▸ heq
        rw [h1, h2, hlookup, hlookup, adj_symm]
        exact hinv.inv e3.1 e3.2 (adj_of_mem he3)
    obtain ⟨k, hk, hred, hall⟩ := reduceRepr_spec st.crepr (relabelEdges st.graph mi.1)
    have hmk : st.crepr.length - (reduceRepr st.crepr (relabelEdges st.graph mi.1)).length
        = k := by
      rw [hred, List.length_drop]
      omega
    rw [hmk] at hstep
    have hspec := addGatesGo_spec st.queueRest k
      (updateQubitMap st.qubitMap mi.1) st.crepr hinv.reprCorr
    have hst2 := Option.some.inj hstep
    subst hst2
    refine ⟨?_, ?_, ?_, ?_, ?_, ?_, ?_⟩
    · exact hinv2
    · rw [updateQubitMap_length]
      exact hinv.qmLen
    · intro e2 he2
      obtain ⟨e3, he3, heq⟩ := hedge e2 he2
      rw [heq]
      exact ⟨hlmapbound _ (hinv.gBound e3 he3).1, hlmapbound _ (hinv.gBound e3 he3).2⟩
    · intro e2 he2
      obtain ⟨e3, he3, heq⟩ := hedge e2 he2
      rw [heq]
      exact hlmapinj _ _ (hinv.gIrr e3 he3)
    · intro e2 he2
      rw [hred] at he2
      exact hinv.rBound e2 (List.mem_of_mem_drop he2)
    · rw [hred]
      exact hspec.1
    · intro g hg2
      rcases List.mem_append.mp hg2 with hg3 | hg3
      · rcases List.mem_append.mp hg3 with hg4 | hg4
        · exact hinv.outOk g hg4
        · simp only [addSwaps] at hg4
          obtain ⟨e3, he3, hgeq⟩ := List.mem_map.mp hg4
          subst hgeq
          refine hinv.inv e3.1 e3.2 ?_
          rcases List.mem_append.mp he3 with hf | hb
          · exact pairwiseList_rel _ (hpchain.take _) e3 hf
          · refine @pairwiseList_rel (fun a b => adj st.graph a b = true)
              ((path.drop (mi.2 + 1)).reverse) ?_ e3 hb
            rw [List.chain'_reverse]
            exact List.Chain'.imp (fun a b hab => (adj_symm st.graph b a).trans hab)
              (hpchain.drop _)
      · rcases hspec.2 g hg3 with ⟨x, hgo⟩ | ⟨a2, b2, hgt, hmem⟩
        · subst hgo
          trivial
        · subst hgt
          have hadj : adj (relabelEdges st.graph mi.1) a2 b2 = true := by
            rw [← sortPair_adj]
            exact hall _ hmem
          exact hinv2 a2 b2 hadj

theorem first_transpiler_step_inv {conn : Connectivity} {argInv : List Nat}
    {st : RouterState} (hinv : RouterInv conn argInv st) :
    RouterInv conn argInv (first_transpiler_step st) := by
  simp only [first_transpiler_step]
  obtain ⟨k, hk, hred, hall⟩ := reduceRepr_spec st.crepr st.graph
  have hmk : st.crepr.length - (reduceRepr st.crepr st.graph).length = k := by
    rw [hred, List.length_drop]
    omega
  rw [hmk]
  have hspec := addGatesGo_spec st.queueRest k st.qubitMap st.crepr hinv.reprCorr
  refine ⟨hinv.inv, hinv.qmLen, hinv.gBound, hinv.gIrr, ?_, ?_, ?_⟩
  · intro e2 he2
    rw [hred] at he2
    exact hinv.rBound e2 (List.mem_of_mem_drop he2)
  · rw [hred]
    exact hspec.1
  · intro g hg2
    rcases List.mem_append.mp hg2 with hg3 | hg3
    · exact hinv.outOk g hg3
    · rcases hspec.2 g hg3 with ⟨x, hgo⟩ | ⟨a2, b2, hgt, hmem⟩
      · subst hgo
        trivial
      · subst hgt
        have hadj : adj st.graph a2 b2 = true := by
          rw [← sortPair_adj]
          exact hall _ hmem
        exact hinv.inv a2 b2 hadj

theorem routerLoop_inv {conn : Connectivity} {argInv : List Nat} :
    ∀ (fuel : Nat) (st stF : RouterState), RouterInv conn argInv st →
      routerLoop conn.n fuel st = some stF → RouterInv conn argInv stF := by
  intro fuel
  induction fuel with
  | zero =>
    intro st stF hinv h
    rw [routerLoop] at h
    split at h
    · exact (Option.some.inj h) ▸ hinv
    · cases h
  | succ fuel ih =>
    intro st stF hinv h
    rw [routerLoop] at h
    split at h
    · exact (Option.some.inj h) ▸ hinv
    · split at h
      · cases h
      · rename_i st1 hstep
        exact ih st1 stF (transpiler_step_inv hinv hstep) h

theorem remap_respect {conn : Connectivity} {argInv : List Nat} :
    ∀ (gs : List CGate), (∀ g ∈ gs, GateOk conn argInv g) →
      respect_connectivity conn (remap_circuit gs argInv) = true := by
  intro gs
  induction gs with
  | nil => intro _; rfl
  | cons g rest ih =>
    intro h
    cases g with
    | one q => exact ih (fun g2 hg2 => h g2 (List.mem_cons_of_mem _ hg2))
    | two a b =>
      have h1 : adj conn.edges (lookList argInv a) (lookList argInv b) = true :=
        h (.two a b) (List.mem_cons_self _ _)
      have h2 := ih (fun g2 hg2 => h g2 (List.mem_cons_of_mem _ hg2))
      show (adj conn.edges (lookList argInv a) (lookList argInv b) &&
        respect_connectivity conn (remap_circuit rest argInv)) = true
      rw [h1, h2]
      rfl
    | multi qs => exact (h (.multi qs) (List.mem_cons_self _ _)).elim

theorem sortPair_bound {a b n : Nat} (ha : a < n) (hb : b < n) :
    (sortPair a b).1 < n ∧ (sortPair a b).2 < n := by
  rw [sortPair]
  split
  · exact ⟨ha, hb⟩
  · exact ⟨hb, ha⟩

/-- C5: for every circuit and connectivity graph with well-formed edges
(endpoints inside the device, no self-loops) and gate qubits inside the
circuit, every output the `ShortestPaths` router produces (a `some` covers
exactly the non-raising, loop-terminating executions of `__call__`) contains
only single-qubit gates and two-qubit gates whose physical qubit pairs are
edges of the connectivity graph: `respect_connectivity` returns `True` on it. -/
theorem c5_shortest_paths_respects_connectivity
    (conn : Connectivity) (layout : List (String × Nat)) (queue : List CGate)
    (nqubits fuel : Nat) (out : List CGate)
    (hconn : ∀ e ∈ conn.edges, e.1 < conn.n ∧ e.2 < conn.n)
    (hirr : ∀ e ∈ conn.edges, e.1 ≠ e.2)
    (hqueue : ∀ g ∈ queue, ∀ a b, g = CGate.two a b → a < nqubits ∧ b < nqubits)
    (hcall : ShortestPaths_call conn layout queue nqubits fuel = some out) :
    respect_connectivity conn out = true := by
  simp only [ShortestPaths_call] at hcall
  split at hcall
  · cases hcall
  · rename_i hngt
    split at hcall
    · cases hcall
    · rename_i hap0
      have hap : assert_placement conn.n layout = true := not_not.mp hap0
      split at hcall
      · cases hcall
      · rename_i repr0 hrepr
        split at hcall
        · cases hcall
        · rename_i stF hloop
          have hap3 := (assert_placement_eq_true conn.n layout).mp hap
          have hlayn : layout.length = conn.n := hap3.2.2
          have hperm : (layout.map (fun kv => kv.2)).Perm (List.range conn.n) := by
            have h := hap3.2.1
            rw [hlayn] at h
            exact h
          have hlen2 : (layout.map (fun kv => kv.2)).length = conn.n := by
            rw [List.length_map]
            exact hlayn
          have hnd2 : (layout.map (fun kv => kv.2)).Nodup :=
            hperm.symm.nodup (List.nodup_range _)
          have hmemlt : ∀ v ∈ layout.map (fun kv => kv.2), v < conn.n := by
            intro v hv
            exact List.mem_range.mp (hperm.mem_iff.mp hv)
          have hlookr : ∀ x, x < conn.n → lookList (List.range conn.n) x = x := by
            intro x hx
            rw [lookList, List.getD_eq_getElem _ _ (by simpa using hx),
              List.getElem_range]
          have hlookin : ∀ x, x < conn.n →
              lookList (layout.map (fun kv => kv.2)) x < conn.n := by
            intro x hx
            rw [lookList, List.getD_eq_getElem _ _ (by rw [hlen2]; exact hx)]
            exact hmemlt _ (List.getElem_mem _)
          have hq : pySorted (layout.map (fun kv => kv.2)) = List.range conn.n :=
            (pySorted_eq_range_iff _ conn.n hlen2).mpr hperm
          have hinj2 : ∀ x y, x < conn.n → y < conn.n → x ≠ y →
              lookList (layout.map (fun kv => kv.2)) x ≠
                lookList (layout.map (fun kv => kv.2)) y := by
            intro x y hx hy hne
            rw [lookList, lookList, List.getD_eq_getElem _ _ (by rw [hlen2]; exact hx),
              List.getD_eq_getElem _ _ (by rw [hlen2]; exact hy)]
            intro hc
            exact hne ((@List.Nodup.getElem_inj_iff ℕ _ hnd2 x (by rw [hlen2]; exact hx)
              y (by rw [hlen2]; exact hy)).mp hc)
          have hinv0 : RouterInv conn (argsortList (layout.map (fun kv => kv.2)))
              ⟨relabelByList conn.edges (layout.map (fun kv => kv.2)),
                pySorted (layout.map (fun kv => kv.2)), repr0, queue, [], 0⟩ := by
            refine ⟨?_, ?_, ?_, ?_, ?_, ?_, ?_⟩
            · intro a b hab
              rcases adj_edge_cases hab with hmem | hmem
              · obtain ⟨e3, he3, heq⟩ := List.mem_map.mp hmem
                obtain ⟨h1, h2⟩ := Prod.mk.injEq .. ▸ heq
                rw [← h1, ← h2, hq, hlookr _ (hlookin _ (hconn e3 he3).1),
                  hlookr _ (hlookin _ (hconn e3 he3).2),
                  argsort_inverse _ conn.n hperm _ (hconn e3 he3).1,
                  argsort_inverse _ conn.n hperm _ (hconn e3 he3).2]
                exact adj_of_mem he3
              · obtain ⟨e3, he3, heq⟩ := List.mem_map.mp hmem
                obtain ⟨h1, h2⟩ := Prod.mk.injEq .. ▸ heq
                rw [← h1, ← h2, hq, hlookr _ (hlookin _ (hconn e3 he3).1),
                  hlookr _ (hlookin _ (hconn e3 he3).2),
                  argsort_inverse _ conn.n hperm _ (hconn e3 he3).1,
                  argsort_inverse _ conn.n hperm _ (hconn e3 he3).2, adj_symm]
                exact adj_of_mem he3
            · show (pySorted (layout.map (fun kv => kv.2))).length = conn.n
              rw [hq, List.length_range]
            · intro e2 he2
              obtain ⟨e3, he3, heq⟩ := List.mem_map.mp he2
              rw [← heq]
              exact ⟨hlookin _ (hconn e3 he3).1, hlookin _ (hconn e3 he3).2⟩
            · intro e2 he2
              obtain ⟨e3, he3, heq⟩ := List.mem_map.mp he2
              rw [← heq]
              exact hinj2 _ _ (hconn e3 he3).1 (hconn e3 he3).2 (hirr e3 he3)
            · intro e2 he2
              obtain ⟨a2, b2, hab2, heq2⟩ := crepr_mem queue repr0 hrepr e2 he2
              obtain ⟨ha2, hb2⟩ := hqueue _ hab2 a2 b2 rfl
              have hnle : nqubits ≤ conn.n := by omega
              rw [heq2]
              exact sortPair_bound (by omega) (by omega)
            · exact hrepr
            · intro g hgm
              simp at hgm
          have hinvF := routerLoop_inv fuel _ stF (first_transpiler_step_inv hinv0) hloop
          have hout := Option.some.inj hcall
          rw [← hout]
          exact remap_respect stF.transpiled hinvF.outOk

/-- C5 witness: on the 2-qubit line with the identity layout, the circuit
`[X(0), CZ(0, 1)]` is routed without swaps and the output respects the
connectivity. -/
theorem c5_shortest_paths_respects_connectivity_witness :
    ShortestPaths_call ⟨2, [(0, 1)]⟩ [("q0", 0), ("q1", 1)]
        [CGate.one 0, CGate.two 0 1] 2 0 = some [CGate.one 0, CGate.two 0 1] ∧
    respect_connectivity ⟨2, [(0, 1)]⟩ [CGate.one 0, CGate.two 0 1] = true :=
  ⟨by decide, c5_shortest_paths_respects_connectivity ⟨2, [(0, 1)]⟩
    [("q0", 0), ("q1", 1)] [CGate.one 0, CGate.two 0 1] 2 0
    [CGate.one 0, CGate.two 0 1]
    (by decide) (by decide)
    (by
      intro g hg a b heq
      subst heq
      simp only [List.mem_cons, List.not_mem_nil, or_false] at hg
      rcases hg with hg | hg
      · cases hg
      · cases hg
        exact ⟨by decide, by decide⟩)
    (by decide)⟩

end Qibolab
